import Mathlib

/-!
Verification development for the MeetingMinutesATS transcription pipeline.

The Python sources are shallowly embedded:
* text is `List Char` (Python `len` counts code points, as does `List.length`);
* Python floats that the properties exercise are embedded as `ℚ`
  (every numeric literal involved, e.g. `65.5`, is exactly representable,
  and all the arithmetic performed on them is exact);
* Python `int()` truncation and `//`/`%` on non-negative values are
  floors and (floored) remainders on `ℚ`.

Embedded functions (from `src/transcribe.py` and `src/postprocess.py`):
`windows` (chunk loop of `WhisperTranscriber.transcribe`),
`combineChunks` (`_combine_chunks`), `formatTime`
(`TranscriptFormatter.format_time`), `formatTimestamp`
(`WhisperTranscriber._format_timestamp`), `correct`
(`PunctuationCorrector.correct` with its eight ordered rules),
`segmentBySpeaker` (`SpeakerSegmenter.segment_by_speaker`), and
`guardScope` (the `MemoryGuard` context manager).
-/

namespace MeetingMinutesATS

/-! ## Character classes

Python's `re` module with `str` patterns uses Unicode classes.  The
development restricts `\w` to the scripts actually exercised by this
repository (ASCII word characters plus CJK unified ideographs); the
full-width punctuation marks `，` `。` and ASCII punctuation are outside
`\w` in Python as well, so the restriction is conservative for every
string manipulated here. -/

/-- CJK unified ideographs (the Chinese characters used by the repo). -/
def isCJK (c : Char) : Bool := 0x4E00 ≤ c.toNat && c.toNat ≤ 0x9FFF

/-- Python regex `\w`, restricted to the scripts exercised here. -/
def isWordChar (c : Char) : Bool := c.isAlphanum || c == '_' || isCJK c

/-- The full-width punctuation class `[，。]`. -/
def isFw (c : Char) : Bool := c == '，' || c == '。'

/-- The sentence-ending class `[.!?]` of rules 4 and 7. -/
def isEndPunct (c : Char) : Bool := c == '.' || c == '!' || c == '?'

/-- The class `[。.!?]` used by the sentence splitter. -/
def isSentenceEnd (c : Char) : Bool := c == '。' || c == '.' || c == '!' || c == '?'

/-- Python `\s` / `str.strip` whitespace (ASCII part). -/
def isPySpace (c : Char) : Bool :=
  c == ' ' || c == '\t' || c == '\n' || c == '\r' || c.toNat == 11 || c.toNat == 12

/-! ## Timestamp formatting

`TranscriptFormatter.format_time` and `WhisperTranscriber._format_timestamp`.
Python `a // b` on floats is `⌊a / b⌋`; `a % b` (`b > 0`) is
`a - b * ⌊a / b⌋`; `int()` truncates toward zero, which on the
non-negative intermediate values below is the floor. -/

/-- Python `int()` on an exact rational: truncation toward zero. -/
def pyInt (q : ℚ) : ℤ := if 0 ≤ q then ⌊q⌋ else ⌈q⌉

/-- Python float `%` for a positive right operand. -/
def fmod (a b : ℚ) : ℚ := a - b * ⌊a / b⌋

/-- Python `f"{n:02d}"`. -/
def pad2 (n : ℤ) : String :=
  if 0 ≤ n ∧ n < 10 then "0" ++ toString n else toString n

/-- Python `f"{n:03d}"`. -/
def pad3 (n : ℤ) : String :=
  if 0 ≤ n ∧ n < 10 then "00" ++ toString n
  else if 0 ≤ n ∧ n < 100 then "0" ++ toString n
  else toString n

/-- `TranscriptFormatter.format_time`: `HH:MM:SS`, no milliseconds. -/
def formatTime (seconds : ℚ) : String :=
  pad2 ⌊seconds / 3600⌋ ++ ":" ++ pad2 ⌊fmod seconds 3600 / 60⌋ ++ ":" ++
    pad2 ⌊fmod seconds 60⌋

/-- `WhisperTranscriber._format_timestamp`: `HH:MM:SS,mmm` (SRT form;
the code's separator before the milliseconds is a comma). -/
def formatTimestamp (seconds : ℚ) : String :=
  let hours : ℤ := ⌊seconds / 3600⌋
  let s2 : ℚ := fmod seconds 3600
  let minutes : ℤ := ⌊s2 / 60⌋
  let s3 : ℚ := fmod s2 60
  let milliseconds : ℤ := ⌊(s3 - ⌊s3⌋) * 1000⌋
  pad2 hours ++ ":" ++ pad2 minutes ++ ":" ++ pad2 ⌊s3⌋ ++ "," ++ pad3 milliseconds

/-! ## Claim C5: formatting the timestamp 65.5 -/

/-- C5 (counterexample): the claim states the milliseconds form of 65.5 is
`"00:01:05.500"`, but `_format_timestamp` separates the milliseconds with a
comma (its docstring says SRT format `HH:MM:SS,mmm`), so the claimed string
is not produced. -/
theorem c5_counterexample : formatTimestamp (131/2) ≠ "00:01:05.500" := by
  have h : formatTimestamp (131/2) = "00:01:05,500" := by
    unfold formatTimestamp fmod
    norm_num
    decide
  rw [h]
  decide

/-- C5 (amended): formatting 65.5 seconds yields `"00:01:05"` in the
no-milliseconds form (`TranscriptFormatter.format_time`) and
`"00:01:05,500"` — with a comma before the milliseconds — in the
milliseconds form (`WhisperTranscriber._format_timestamp`). -/
theorem c5_amended :
    formatTime (131/2) = "00:01:05" ∧ formatTimestamp (131/2) = "00:01:05,500" := by
  constructor
  · unfold formatTime fmod
    norm_num
    decide
  · unfold formatTimestamp fmod
    norm_num
    decide

/-! ## Data model for chunk combination

`_process_audio_chunk` returns a dict `{text, segments, start_time,
end_time}`; each segment is `{start, end, text}` (fields named `start`,
`stop`, `text` here because `end` is a Lean keyword).
`_combine_chunks` executes, for each chunk in order:
`combined["text"] += chunk["text"] + " "` and, for each segment,
`segment["start"] += chunk["start_time"]; segment["end"] +=
chunk["start_time"]; combined["segments"].append(segment)`.
The `+=` on the segment dicts mutates the caller's chunk list in place, so
the embedding returns, next to the combined transcript, the chunk list as it
is left after the call. -/

/-- A whisper segment `{start, end, text}` (`stop` embeds the `end` key). -/
@[ext]
structure Segment where
  start : ℚ
  stop : ℚ
  text : List Char
  deriving Repr, DecidableEq

/-- One entry of the `chunks` list built by `transcribe`. -/
@[ext]
structure ChunkResult where
  text : List Char
  segments : List Segment
  startTime : ℚ
  endTime : ℚ
  deriving Repr, DecidableEq

/-- The combined result `{text, segments, language}`. -/
@[ext]
structure Transcript where
  text : List Char
  segments : List Segment
  language : List Char
  deriving Repr, DecidableEq

/-- The in-place `segment["start"] += off; segment["end"] += off`. -/
def offsetSegment (off : ℚ) (s : Segment) : Segment :=
  ⟨s.start + off, s.stop + off, s.text⟩

/-- `WhisperTranscriber._combine_chunks`.  The first component is the
returned combined dict; the second is the input chunk list as left behind
by the in-place mutation of its segments. -/
def combineChunks (language : List Char) :
    List ChunkResult → Transcript × List ChunkResult
  | [] => (⟨[], [], language⟩, [])
  | c :: rest =>
    let segs := c.segments.map (offsetSegment c.startTime)
    let (t, rest') := combineChunks language rest
    (⟨c.text ++ ' ' :: t.text, segs ++ t.segments, language⟩,
      { c with segments := segs } :: rest')


/-! ## Claims C2, C6, C10: combining chunks -/

def c2ScenarioChunks : List ChunkResult :=
  [⟨"a".toList, [⟨10, 12, "a".toList⟩], 0, 300⟩,
   ⟨"b".toList, [⟨5, 7, "b".toList⟩], 300, 600⟩]

def c2CexChunks : List ChunkResult :=
  [⟨"a".toList, [⟨10, 12, "a".toList⟩], 0, 300⟩,
   ⟨"b".toList, [⟨5, 7, "b".toList⟩], 0, 300⟩]

theorem combineChunks_fst_segments (lang : List Char) (chunks : List ChunkResult) :
    (combineChunks lang chunks).1.segments
      = chunks.flatMap (fun c => c.segments.map (offsetSegment c.startTime)) := by
  induction chunks with
  | nil => simp [combineChunks]
  | cons c rest ih => simp [combineChunks, ih]

theorem combineChunks_fst_text (lang : List Char) (chunks : List ChunkResult) :
    (combineChunks lang chunks).1.text
      = (chunks.map (fun c => c.text ++ [' '])).flatten := by
  induction chunks with
  | nil => simp [combineChunks]
  | cons c rest ih => simp [combineChunks, ih]

theorem combineChunks_snd (lang : List Char) (chunks : List ChunkResult) :
    (combineChunks lang chunks).2
      = chunks.map (fun c =>
          { c with segments := c.segments.map (offsetSegment c.startTime) }) := by
  induction chunks with
  | nil => simp [combineChunks]
  | cons c rest ih => simp [combineChunks, ih]

theorem c2_counterexample :
    List.Chain' (· ≤ ·) (c2CexChunks.map ChunkResult.startTime) ∧
    ¬ List.Chain' (· ≤ ·)
        (((combineChunks [] c2CexChunks).1.segments).map Segment.start) := by
  constructor
  · simp [c2CexChunks]
  · simp [combineChunks, offsetSegment, c2CexChunks]
    norm_num

/-- Every offset segment start drawn from a contiguous chunk list is bounded
below by the first chunk's window start. -/
theorem flatMap_starts_lower_bound (chunks : List ChunkResult) (b : ℚ)
    (hseg : ∀ c ∈ chunks, ∀ s ∈ c.segments, 0 ≤ s.start)
    (hwin : ∀ c ∈ chunks, c.startTime ≤ c.endTime)
    (hcontig : List.Chain' (fun c c' => c'.startTime = c.endTime) chunks)
    (hb : ∀ c ∈ chunks.head?, b ≤ c.startTime) :
    ∀ x ∈ chunks.flatMap (fun c => c.segments.map (fun s => s.start + c.startTime)),
      b ≤ x := by
  induction chunks with
  | nil => simp
  | cons c rest ih =>
    intro x hx
    rw [List.flatMap_cons, List.mem_append] at hx
    have hbc : b ≤ c.startTime := hb c (by simp)
    rcases hx with hx | hx
    · obtain ⟨s, hs, rfl⟩ := List.mem_map.mp hx
      have h0 : 0 ≤ s.start := hseg c (by simp) s hs
      linarith
    · refine ih (fun c' hc' => hseg c' (by simp [hc']))
        (fun c' hc' => hwin c' (by simp [hc'])) hcontig.tail ?_ x hx
      intro r hr
      have hhead : rest.head? = some r := hr
      have : r.startTime = c.endTime := by
        have := (List.chain'_cons'.mp hcontig).1
        exact this r hhead
      have hce : c.startTime ≤ c.endTime := hwin c (by simp)
      rw [this]
      linarith

/-- The offset segment starts of a well-formed chunk list are monotone. -/
theorem flatMap_starts_chain (chunks : List ChunkResult)
    (hcontig : List.Chain' (fun c c' => c'.startTime = c.endTime) chunks)
    (hwin : ∀ c ∈ chunks, c.startTime ≤ c.endTime)
    (hseg : ∀ c ∈ chunks, ∀ s ∈ c.segments,
      0 ≤ s.start ∧ s.start + c.startTime ≤ c.endTime)
    (hord : ∀ c ∈ chunks, List.Chain' (fun s s' => s.start ≤ s'.start) c.segments) :
    List.Chain' (· ≤ ·)
      (chunks.flatMap (fun c => c.segments.map (fun s => s.start + c.startTime))) := by
  induction chunks with
  | nil => simp
  | cons c rest ih =>
    rw [List.flatMap_cons, List.chain'_append]
    refine ⟨?_, ?_, ?_⟩
    · rw [List.chain'_map]
      exact (hord c (by simp)).imp (fun _ _ h => add_le_add_right h _)
    · exact ih hcontig.tail (fun c' hc' => hwin c' (by simp [hc']))
        (fun c' hc' => hseg c' (by simp [hc'])) (fun c' hc' => hord c' (by simp [hc']))
    · intro x hx y hy
      have hxm : x ∈ c.segments.map (fun s => s.start + c.startTime) :=
        List.mem_of_mem_getLast? hx
      obtain ⟨s, hs, rfl⟩ := List.mem_map.mp hxm
      have hxe : s.start + c.startTime ≤ c.endTime := (hseg c (by simp) s hs).2
      have hym :
          y ∈ rest.flatMap (fun c => c.segments.map (fun s => s.start + c.startTime)) :=
        List.mem_of_mem_head? hy
      have hyb : c.endTime ≤ y := by
        refine flatMap_starts_lower_bound rest c.endTime
          (fun c' hc' => fun s' hs' => (hseg c' (by simp [hc']) s' hs').1)
          (fun c' hc' => hwin c' (by simp [hc'])) hcontig.tail ?_ y hym
        intro r hr
        have : r.startTime = c.endTime := (List.chain'_cons'.mp hcontig).1 r hr
        rw [this]
      linarith

/-- C2 (amended): `_combine_chunks` preserves segment order and adds each
chunk's `start_time` to its segments' `start`/`end`; the global starts are
monotone provided additionally the windows are contiguous, each chunk's
segments are internally ordered by `start`, and each chunk-relative start
lies inside its window.  (Non-decreasing window starts alone do not
suffice, see the counterexample.)  In particular the concrete scenario of
the claim evaluates to `[{10,12},{305,307}]`. -/
theorem c2_amended :
    (∀ (lang : List Char) (chunks : List ChunkResult),
      List.Chain' (fun c c' => c'.startTime = c.endTime) chunks →
      (∀ c ∈ chunks, c.startTime ≤ c.endTime) →
      (∀ c ∈ chunks, ∀ s ∈ c.segments,
        0 ≤ s.start ∧ s.start + c.startTime ≤ c.endTime) →
      (∀ c ∈ chunks, List.Chain' (fun s s' => s.start ≤ s'.start) c.segments) →
      (combineChunks lang chunks).1.segments
          = chunks.flatMap (fun c => c.segments.map (offsetSegment c.startTime)) ∧
        List.Chain' (· ≤ ·)
          (((combineChunks lang chunks).1.segments).map Segment.start)) ∧
    (combineChunks "zh".toList c2ScenarioChunks).1.segments
      = [⟨10, 12, "a".toList⟩, ⟨305, 307, "b".toList⟩] := by
  constructor
  · intro lang chunks hcontig hwin hseg hord
    refine ⟨combineChunks_fst_segments lang chunks, ?_⟩
    rw [combineChunks_fst_segments]
    have : (chunks.flatMap
        (fun c => c.segments.map (offsetSegment c.startTime))).map Segment.start
        = chunks.flatMap (fun c => c.segments.map (fun s => s.start + c.startTime)) := by
      simp [List.map_flatMap, List.map_map, offsetSegment, Function.comp_def]
    rw [this]
    exact flatMap_starts_chain chunks hcontig hwin hseg hord
  · simp [combineChunks, offsetSegment, c2ScenarioChunks]
    norm_num

/-- C2 witness: the scenario chunk list satisfies the hypotheses of the
amended theorem, and its combined starts are monotone. -/
theorem c2_amended_witness :
    List.Chain' (fun c c' => c'.startTime = c.endTime) c2ScenarioChunks ∧
    List.Chain' (· ≤ ·)
      (((combineChunks "zh".toList c2ScenarioChunks).1.segments).map Segment.start) :=
  ⟨by simp [c2ScenarioChunks],
   (c2_amended.1 "zh".toList c2ScenarioChunks
      (by simp [c2ScenarioChunks])
      (by intro c hc; simp [c2ScenarioChunks] at hc; rcases hc with rfl | rfl <;> norm_num)
      (by intro c hc s hs; simp [c2ScenarioChunks] at hc
          rcases hc with rfl | rfl <;> simp at hs <;> subst hs <;> norm_num)
      (by intro c hc; simp [c2ScenarioChunks] at hc
          rcases hc with rfl | rfl <;> simp)).2⟩

/-- Texts joined with exactly one separating space and no leading or
trailing separator.  Modelled from the spec: "concatenate `text` fields
with a single separating space"; used to compare against what
`_combine_chunks` actually produces. -/
def specJoinTexts : List (List Char) → List Char
  | [] => []
  | [t] => t
  | t :: rest => t ++ ' ' :: specJoinTexts rest

def c6CexChunks : List ChunkResult :=
  [⟨"a".toList, [], 0, 300⟩, ⟨"b".toList, [], 300, 600⟩]

/-- C6 (counterexample): for the chunks `["a", "b"]` the code produces
`"a b "` (with a trailing space), not the separator-free join `"a b"`. -/
theorem c6_counterexample :
    (combineChunks [] c6CexChunks).1.text
      ≠ specJoinTexts (c6CexChunks.map ChunkResult.text) := by
  simp [combineChunks, specJoinTexts, c6CexChunks]

/-- C6 (amended): for every non-empty chunk list the combined `text` is the
chunk texts joined with a single separating space **plus one trailing
space** (`text += chunk["text"] + " "` also appends after the last chunk);
there is no leading separator. -/
theorem c6_amended (lang : List Char) (chunks : List ChunkResult)
    (h : chunks ≠ []) :
    (combineChunks lang chunks).1.text
      = specJoinTexts (chunks.map ChunkResult.text) ++ [' '] := by
  induction chunks with
  | nil => exact absurd rfl h
  | cons c rest ih =>
    cases rest with
    | nil => simp [combineChunks, specJoinTexts]
    | cons c' rest' =>
      have := ih (by simp)
      simp only [combineChunks, List.map_cons] at this ⊢
      rw [this]
      simp [specJoinTexts]

/-- C6 witness at the two-chunk example. -/
theorem c6_amended_witness :
    (combineChunks [] c6CexChunks).1.text
      = specJoinTexts (c6CexChunks.map ChunkResult.text) ++ [' '] :=
  c6_amended [] c6CexChunks (by simp [c6CexChunks])

/-- C10 (confirmed): `_combine_chunks` mutates its input in place — the
chunk list left behind has every segment offset by its chunk's
`start_time`; combining that mutated list a second time offsets every
segment twice; on the scenario chunks the two results differ. -/
theorem c10_combine_mutates_input :
    (∀ (lang : List Char) (chunks : List ChunkResult),
      (combineChunks lang chunks).2
        = chunks.map (fun c =>
            { c with segments := c.segments.map (offsetSegment c.startTime) })) ∧
    (∀ (lang : List Char) (chunks : List ChunkResult),
      (combineChunks lang ((combineChunks lang chunks).2)).1.segments
        = chunks.flatMap (fun c =>
            c.segments.map (offsetSegment (c.startTime + c.startTime)))) ∧
    (combineChunks [] ((combineChunks [] c2ScenarioChunks).2)).1.segments
      ≠ (combineChunks [] c2ScenarioChunks).1.segments := by
  refine ⟨combineChunks_snd, ?_, ?_⟩
  · intro lang chunks
    rw [combineChunks_snd, combineChunks_fst_segments]
    simp only [List.flatMap_map]
    congr 1
    funext c
    simp [offsetSegment, List.map_map, Function.comp, add_assoc]
  · simp [combineChunks, offsetSegment, c2ScenarioChunks]

/-! ## Claim C1: the chunk windows of `transcribe`

`for chunk_start in range(0, int(duration), self.chunk_size):
   chunk_end = min(chunk_start + self.chunk_size, duration)` -/

/-- Python `range(0, stop, step)` for `step > 0`. -/
def rangeStep (stop step : ℕ) : List ℕ :=
  (List.range ((stop + step - 1) / step)).map (· * step)

/-- The `(chunk_start, chunk_end)` windows generated by the chunk loop of
`WhisperTranscriber.transcribe`.  Note the loop bound is `int(duration)`,
the truncated duration. -/
def windows (duration : ℚ) (chunkSize : ℕ) : List (ℚ × ℚ) :=
  (rangeStep (pyInt duration).toNat chunkSize).map
    (fun s : ℕ => ((s : ℚ), min ((s : ℚ) + chunkSize) duration))

theorem windows_natCast (d w : ℕ) :
    windows (d : ℚ) w
      = (List.range ((d + w - 1) / w)).map
          (fun i : ℕ => (((i * w : ℕ) : ℚ), min (((i * w : ℕ) : ℚ) + w) (d : ℚ))) := by
  unfold windows rangeStep pyInt
  rw [if_pos (by positivity), Int.floor_natCast, Int.toNat_natCast, List.map_map]
  rfl

/-- C1 (counterexample): for duration `0.5` and window size `300` (both
positive) the loop generates **no** windows at all — `range(0,
int(0.5), 300)` is empty — so the windows do not cover `[0, 0.5)`. -/
theorem c1_counterexample :
    windows (1/2) 300 = [] ∧
    ¬ (∀ x : ℚ, 0 ≤ x ∧ x < 1/2 →
        ∃ p ∈ windows (1/2) 300, p.1 ≤ x ∧ x < p.2) := by
  have hnil : windows (1/2) 300 = [] := by
    unfold windows rangeStep pyInt
    norm_num
  refine ⟨hnil, fun hcov => ?_⟩
  obtain ⟨p, hp, -⟩ := hcov 0 ⟨le_refl 0, by norm_num⟩
  rw [hnil] at hp
  exact absurd hp (List.not_mem_nil p)

/-- C1 (amended): for every **integer** duration `d > 0` and window size
`w > 0` the generated windows are non-empty, start at 0, are contiguous
(each end is the next start), end at `d`, have positive length of at most
`w`, are pairwise non-overlapping, and their `[start, end)` ranges cover
exactly `[0, d)`.  (For fractional durations the loop bound `int(duration)`
truncates and the tail — possibly all — of the audio is not covered.) -/
theorem c1_amended (d w : ℕ) (hd : 0 < d) (hw : 0 < w) :
    windows (d : ℚ) w ≠ [] ∧
    (∀ p ∈ (windows (d : ℚ) w).head?, p.1 = 0) ∧
    List.Chain' (fun p q => p.2 = q.1) (windows (d : ℚ) w) ∧
    (∀ p ∈ (windows (d : ℚ) w).getLast?, p.2 = d) ∧
    (∀ p ∈ windows (d : ℚ) w, 0 < p.2 - p.1 ∧ p.2 - p.1 ≤ w) ∧
    List.Pairwise (fun p q => p.2 ≤ q.1) (windows (d : ℚ) w) ∧
    (∀ x : ℚ, (0 ≤ x ∧ x < d) ↔ ∃ p ∈ windows (d : ℚ) w, p.1 ≤ x ∧ x < p.2) := by
  obtain ⟨n, hn⟩ : ∃ n, (d + w - 1) / w = n := ⟨_, rfl⟩
  have hW : windows (d : ℚ) w
      = (List.range n).map
          (fun i : ℕ => (((i * w : ℕ) : ℚ), min (((i * w : ℕ) : ℚ) + w) (d : ℚ))) := by
    rw [windows_natCast, hn]
  have hmod : w * n + (d + w - 1) % w = d + w - 1 := by
    rw [← hn]; exact Nat.div_add_mod _ _
  have hmlt : (d + w - 1) % w < w := Nat.mod_lt _ hw
  have hdivle : n * w ≤ d + w - 1 := by
    rw [← hn]; exact Nat.div_mul_le_self _ _
  have hnw : d ≤ n * w := by rw [mul_comm]; omega
  have hpos : 0 < n := by
    rcases Nat.eq_zero_or_pos n with h0 | h
    · subst h0; simp at hnw; omega
    · exact h
  have hiw : ∀ i : ℕ, i < n → i * w < d := by
    intro i hi
    have h1 : (i + 1) * w ≤ n * w := Nat.mul_le_mul_right w hi
    have h3 : (i + 1) * w = i * w + w := by ring
    omega
  have hwq : (0:ℚ) < (w : ℕ) := by exact_mod_cast hw
  have hdq : (0:ℚ) < (d : ℕ) := by exact_mod_cast hd
  obtain ⟨m, hm⟩ : ∃ m, n = m + 1 := ⟨n - 1, by omega⟩
  refine ⟨?_, ?_, ?_, ?_, ?_, ?_, ?_⟩
  · rw [hW]
    simp only [ne_eq, List.map_eq_nil_iff, List.range_eq_nil]
    omega
  · intro p hp
    rw [hW, hm, List.range_succ_eq_map] at hp
    simp only [List.map_cons, List.head?_cons, Option.mem_def, Option.some.injEq] at hp
    rw [← hp]
    simp
  · rw [hW, List.chain'_map, hm, List.chain'_range_succ]
    intro i him
    have hi1 : (i + 1) * w < d := hiw (i + 1) (by omega)
    have : min (((i * w : ℕ) : ℚ) + w) d = (((i + 1) * w : ℕ) : ℚ) := by
      rw [min_eq_left]
      · push_cast; ring
      · have h4 : (((i + 1) * w : ℕ) : ℚ) < d := by exact_mod_cast hi1
        push_cast at h4 ⊢
        linarith
    simp only [this]
  · intro p hp
    rw [hW, hm, List.range_succ, List.map_append] at hp
    simp only [List.map_cons, List.map_nil, List.getLast?_concat, Option.mem_def,
      Option.some.injEq] at hp
    rw [← hp]
    have hmw : d ≤ m * w + w := by
      have h5 : n * w = m * w + w := by rw [hm]; ring
      omega
    simp only
    rw [min_eq_right]
    exact_mod_cast hmw
  · intro p hp
    rw [hW] at hp
    obtain ⟨i, hi, rfl⟩ := List.mem_map.mp hp
    rw [List.mem_range] at hi
    have h1 : (i * w : ℕ) < d := hiw i hi
    have h1q : ((i * w : ℕ) : ℚ) < d := by exact_mod_cast h1
    constructor
    · simp only
      have h6 : ((i * w : ℕ) : ℚ) < min (((i * w : ℕ) : ℚ) + w) d := lt_min (by linarith) h1q
      linarith
    · simp only
      have h7 : min (((i * w : ℕ) : ℚ) + w) d ≤ ((i * w : ℕ) : ℚ) + w := min_le_left _ _
      linarith
  · rw [hW, List.pairwise_map]
    have base : List.Pairwise (· < ·) (List.range n) := List.pairwise_lt_range n
    refine base.imp ?_
    intro i j hij
    simp only
    have h1 : min (((i * w : ℕ) : ℚ) + w) d ≤ ((i * w : ℕ) : ℚ) + w := min_le_left _ _
    have h2 : (i + 1) * w ≤ j * w := Nat.mul_le_mul_right w hij
    have h2q : (((i + 1) * w : ℕ) : ℚ) ≤ ((j * w : ℕ) : ℚ) := by exact_mod_cast h2
    push_cast at h2q h1 ⊢
    linarith
  · intro x
    constructor
    · rintro ⟨hx0, hxd⟩
      obtain ⟨i, hidef⟩ : ∃ i : ℕ, i = (⌊x / (w:ℚ)⌋).toNat := ⟨_, rfl⟩
      have h0 : (0:ℤ) ≤ ⌊x / (w:ℚ)⌋ := Int.floor_nonneg.mpr (by positivity)
      have hc : ((i : ℕ) : ℚ) = (⌊x / (w:ℚ)⌋ : ℚ) := by
        rw [hidef]; exact_mod_cast Int.toNat_of_nonneg h0
      have hfl : (⌊x / (w:ℚ)⌋ : ℚ) ≤ x / w := Int.floor_le _
      have hfu : x / w < (⌊x / (w:ℚ)⌋ : ℚ) + 1 := Int.lt_floor_add_one _
      have hlo : (i : ℚ) * w ≤ x := by
        rw [hc]
        calc (⌊x / (w:ℚ)⌋ : ℚ) * w ≤ (x / w) * w := by nlinarith
          _ = x := by field_simp
      have hhi : x < ((i : ℚ) + 1) * w := by
        rw [hc]
        calc x = (x / w) * w := by field_simp
          _ < ((⌊x / (w:ℚ)⌋ : ℚ) + 1) * w := by nlinarith
      have hin : i < n := by
        by_contra hge
        push_neg at hge
        have hnle : (n : ℚ) * w ≤ (i : ℚ) * w := by
          have h8 : ((n * w : ℕ) : ℚ) ≤ ((i * w : ℕ) : ℚ) := by
            exact_mod_cast Nat.mul_le_mul_right w hge
          push_cast at h8; linarith
        have hdnw : (d : ℚ) ≤ (n : ℚ) * w := by
          have h9 : ((d : ℕ) : ℚ) ≤ ((n * w : ℕ) : ℚ) := by exact_mod_cast hnw
          push_cast at h9; linarith
        linarith
      refine ⟨(((i * w : ℕ) : ℚ), min (((i * w : ℕ) : ℚ) + w) (d : ℚ)), ?_, ?_, ?_⟩
      · rw [hW]
        exact List.mem_map.mpr ⟨i, List.mem_range.mpr hin, rfl⟩
      · push_cast
        linarith
      · refine lt_min ?_ hxd
        push_cast
        linarith
    · rintro ⟨p, hp, hpx, hxp⟩
      rw [hW] at hp
      obtain ⟨j, hj, rfl⟩ := List.mem_map.mp hp
      constructor
      · have h10 : (0:ℚ) ≤ ((j * w : ℕ) : ℚ) := by positivity
        linarith
      · have h11 : min (((j * w : ℕ) : ℚ) + w) d ≤ d := min_le_right _ _
        exact lt_of_lt_of_le hxp h11

/-- C1 witness: the amended theorem applied at duration 301, window 300. -/
theorem c1_amended_witness :
    List.Chain' (fun p q : ℚ × ℚ => p.2 = q.1) (windows ((301 : ℕ) : ℚ) 300) ∧
    (∀ x : ℚ, (0 ≤ x ∧ x < ((301 : ℕ) : ℚ)) ↔
      ∃ p ∈ windows ((301 : ℕ) : ℚ) 300, p.1 ≤ x ∧ x < p.2) :=
  ⟨(c1_amended 301 300 (by decide) (by decide)).2.2.1,
   (c1_amended 301 300 (by decide) (by decide)).2.2.2.2.2.2⟩

/-! ## The speaker segmenter (`SpeakerSegmenter`), claims C3 and C8

`segment_by_speaker` first splits at
`re.split(r'(?<=[。.!?])\s*', text)`: a split position sits right after
every `[。.!?]` character, and the (greedy) `\s*` consumes the whitespace
run that follows it.  `splitAux` walks the text; the `skipping` flag is
true exactly while the `\s*` of the previous boundary is being consumed. -/

def splitAux : Bool → List Char → List Char → List (List Char)
  | _, [], cur => [cur.reverse]
  | skipping, c :: rest, cur =>
    if skipping && isPySpace c then splitAux true rest cur
    else if isSentenceEnd c then ((c :: cur).reverse) :: splitAux true rest []
    else splitAux false rest (c :: cur)

/-- `re.split(r'(?<=[。.!?])\s*', text)`. -/
def splitSentences (text : List Char) : List (List Char) :=
  splitAux false text []

/-- `[s for s in sentences if s.strip()]`. -/
def sentencesOf (text : List Char) : List (List Char) :=
  (splitSentences text).filter (fun s => s.any (fun c => !(isPySpace c)))

/-- `''.join(current_segment)`. -/
def joinSentences (l : List (List Char)) : List Char := l.foldr (· ++ ·) []

/-- `List.isPrefixOf`-style matcher for a literal pattern. -/
def listStartsWith : List Char → List Char → Bool
  | [], _ => true
  | _ :: _, [] => false
  | p :: ps, c :: cs => p == c && listStartsWith ps cs

/-- Substring search for a literal (the `pattern.search` of a literal
alternative). -/
def containsSub (pat : List Char) : List Char → Bool
  | [] => listStartsWith pat []
  | c :: rest => listStartsWith pat (c :: rest) || containsSub pat rest

/-- The Chinese discourse markers of `speaker_patterns[0]`. -/
def chineseMarkers : List (List Char) :=
  ["好的".toList, "那麼".toList, "所以".toList, "接下來".toList, "首先".toList,
   "最後".toList, "另外".toList, "此外".toList, "然後".toList, "但是".toList,
   "不過".toList, "因此".toList, "總之".toList, "總結".toList, "謝謝".toList,
   "感謝".toList, "請問".toList, "我想問".toList, "我認為".toList, "我覺得".toList]

/-- The literal English alternatives of `speaker_patterns[1]`. -/
def englishLiterals : List (List Char) :=
  ["According to".toList, "In my opinion".toList, "I think".toList,
   "I believe".toList, "Let me".toList, "Thank you".toList]

/-- After `[A-Z]` and one `[a-z]`: consume the rest of the (maximal)
lowercase run, then require the literal `" said"`.  Since `' '` is not in
`[a-z]`, greedy matching of `[a-z]+` needs no backtracking here. -/
def saidTail : List Char → Bool
  | [] => false
  | c :: rest => if c.isLower then saidTail rest else listStartsWith " said".toList (c :: rest)

/-- Match of `[A-Z][a-z]+ said` anchored at the head of the list. -/
def matchSaidAt : List Char → Bool
  | u :: c :: rest => u.isUpper && c.isLower && saidTail rest
  | _ => false

/-- `re.search` of `[A-Z][a-z]+ said`. -/
def searchSaid : List Char → Bool
  | [] => false
  | c :: rest => matchSaidAt (c :: rest) || searchSaid rest

/-- `self.compiled_patterns`: does any pattern `search` the sentence?
(The loop breaks at the first match, which is the boolean or.) -/
def isSpeakerChange (s : List Char) : Bool :=
  chineseMarkers.any (fun m => containsSub m s) ||
    (searchSaid s || englishLiterals.any (fun m => containsSub m s))

/-- The sentence loop of `segment_by_speaker`: `cur` is
`current_segment`, `cnt` is `char_count`.  The two flush branches mirror
the two sequential `if` statements: when the character-limit flush fires
the buffer is empty, so the discourse check (which requires a non-empty
buffer) cannot fire on the same sentence. -/
def segLoop (mc : ℕ) : List (List Char) → List (List Char) → ℕ → List (List Char)
  | [], cur, _ => if cur.isEmpty then [] else [joinSentences cur]
  | s :: rest, cur, cnt =>
    if mc < cnt + s.length ∧ ¬ cur.isEmpty then
      joinSentences cur :: segLoop mc rest [s] s.length
    else if ¬ cur.isEmpty ∧ isSpeakerChange s then
      joinSentences cur :: segLoop mc rest [s] s.length
    else
      segLoop mc rest (cur ++ [s]) (cnt + s.length)

/-- `SpeakerSegmenter.segment_by_speaker`. -/
def segmentBySpeaker (mc : ℕ) (text : List Char) : List (List Char) :=
  segLoop mc (sentencesOf text) [] 0

/-- Total character count of the `current_segment` buffer. -/
def sumLen (l : List (List Char)) : ℕ := (l.map List.length).sum

theorem joinSentences_length (l : List (List Char)) :
    (joinSentences l).length = sumLen l := by
  induction l with
  | nil => simp [joinSentences, sumLen]
  | cons t rest ih => simp [joinSentences, sumLen] at ih ⊢; omega

theorem sumLen_append_single (cur : List (List Char)) (s : List Char) :
    sumLen (cur ++ [s]) = sumLen cur + s.length := by
  simp [sumLen]

/-- If every sentence fits in `mc` and the running buffer fits in `mc`,
every segment the loop emits fits in `mc`. -/
theorem segLoop_length_le (mc : ℕ) :
    ∀ (sentences cur : List (List Char)) (cnt : ℕ),
      cnt = sumLen cur → sumLen cur ≤ mc →
      (∀ s ∈ sentences, s.length ≤ mc) →
      ∀ seg ∈ segLoop mc sentences cur cnt, seg.length ≤ mc := by
  intro sentences
  induction sentences with
  | nil =>
    intro cur cnt hcnt hcur _ seg hseg
    rw [segLoop] at hseg
    split at hseg
    · simp at hseg
    · simp at hseg
      rw [hseg, joinSentences_length]
      exact hcur
  | cons t rest ih =>
    intro cur cnt hcnt hcur hs seg hseg
    have ht : t.length ≤ mc := hs t (by simp)
    have hrest : ∀ s ∈ rest, s.length ≤ mc := fun s h => hs s (by simp [h])
    rw [segLoop] at hseg
    split at hseg
    · rcases List.mem_cons.mp hseg with rfl | h
      · rw [joinSentences_length]; exact hcur
      · exact ih [t] t.length (by simp [sumLen]) (by simp [sumLen, ht]) hrest seg h
    · split at hseg
      · rcases List.mem_cons.mp hseg with rfl | h
        · rw [joinSentences_length]; exact hcur
        · exact ih [t] t.length (by simp [sumLen]) (by simp [sumLen, ht]) hrest seg h
      · rename_i hnot1 _
        refine ih (cur ++ [t]) (cnt + t.length)
          (by rw [sumLen_append_single, hcnt]) ?_ hrest seg hseg
        rw [sumLen_append_single]
        by_cases hemp : cur.isEmpty
        · have : cur = [] := List.isEmpty_iff.mp hemp
          subst this
          simpa [sumLen] using ht
        · have : ¬ mc < cnt + t.length := fun hlt => hnot1 ⟨hlt, hemp⟩
          omega

/-- Every emitted segment that exceeds `mc` is one of the input sentences
(or the whole current singleton buffer). -/
theorem segLoop_over (mc : ℕ) :
    ∀ (sentences cur : List (List Char)) (cnt : ℕ),
      cnt = sumLen cur →
      (sumLen cur ≤ mc ∨ ∃ s₀, cur = [s₀]) →
      ∀ seg ∈ segLoop mc sentences cur cnt, mc < seg.length →
        (seg ∈ sentences ∨ cur = [seg]) := by
  intro sentences
  induction sentences with
  | nil =>
    intro cur cnt hcnt hinv seg hseg hover
    rw [segLoop] at hseg
    split at hseg
    · simp at hseg
    · simp at hseg
      subst hseg
      rcases hinv with h | ⟨s₀, rfl⟩
      · rw [joinSentences_length] at hover; omega
      · right; simp [joinSentences]
  | cons t rest ih =>
    intro cur cnt hcnt hinv seg hseg hover
    rw [segLoop] at hseg
    have hsing : ∀ h ∈ segLoop mc rest [t] t.length, mc < h.length →
        h ∈ t :: rest ∨ cur = [h] := by
      intro h hh hover'
      rcases ih [t] t.length (by simp [sumLen]) (Or.inr ⟨t, rfl⟩) h hh hover' with h1 | h1
      · exact Or.inl (by simp [h1])
      · left
        have : t = h := by simpa using h1
        simp [this]
    split at hseg
    · rcases List.mem_cons.mp hseg with rfl | h
      · rcases hinv with h | ⟨s₀, rfl⟩
        · rw [joinSentences_length] at hover; omega
        · right; simp [joinSentences]
      · exact hsing seg h hover
    · split at hseg
      · rcases List.mem_cons.mp hseg with rfl | h
        · rcases hinv with h | ⟨s₀, rfl⟩
          · rw [joinSentences_length] at hover; omega
          · right; simp [joinSentences]
        · exact hsing seg h hover
      · rename_i hnot1 _
        have hinv' : sumLen (cur ++ [t]) ≤ mc ∨ ∃ s₀, cur ++ [t] = [s₀] := by
          by_cases hemp : cur.isEmpty
          · have : cur = [] := List.isEmpty_iff.mp hemp
            subst this
            exact Or.inr ⟨t, rfl⟩
          · have : ¬ mc < cnt + t.length := fun hlt => hnot1 ⟨hlt, hemp⟩
            left
            rw [sumLen_append_single]
            omega
        rcases ih (cur ++ [t]) (cnt + t.length)
            (by rw [sumLen_append_single, hcnt]) hinv' seg hseg hover with h | h
        · exact Or.inl (by simp [h])
        · left
          have hcur : cur = [] := by
            cases cur with
            | nil => rfl
            | cons a l =>
              exfalso
              have := congrArg List.length h
              simp at this
          subst hcur
          have : t = seg := by simpa using h
          simp [this]

/-- A buffer already over the limit is flushed verbatim by the loop. -/
theorem segLoop_cur_emitted (mc : ℕ) (rest : List (List Char))
    (cur : List (List Char)) (cnt : ℕ) (hne : ¬ cur.isEmpty) (hover : mc < cnt) :
    joinSentences cur ∈ segLoop mc rest cur cnt := by
  cases rest with
  | nil => rw [segLoop]; simp [hne]
  | cons u rest' =>
    rw [segLoop]
    rw [if_pos ⟨by omega, hne⟩]
    simp

/-- Every oversized sentence appears among the emitted segments. -/
theorem segLoop_oversized_mem (mc : ℕ) :
    ∀ (sentences cur : List (List Char)) (cnt : ℕ),
      cnt = sumLen cur →
      ∀ s ∈ sentences, mc < s.length → s ∈ segLoop mc sentences cur cnt := by
  intro sentences
  induction sentences with
  | nil => intro cur cnt _ s h; simp at h
  | cons t rest ih =>
    intro cur cnt hcnt s hs hover
    have hjoin : joinSentences [t] = t := by simp [joinSentences]
    rcases List.mem_cons.mp hs with rfl | hmem
    · rw [segLoop]
      split
      · refine List.mem_cons_of_mem _ ?_
        have := segLoop_cur_emitted mc rest [s] s.length (by simp) hover
        rwa [hjoin] at this
      · split
        · refine List.mem_cons_of_mem _ ?_
          have := segLoop_cur_emitted mc rest [s] s.length (by simp) hover
          rwa [hjoin] at this
        · rename_i hnot1 _
          have hemp : cur.isEmpty := by
            by_contra hne
            exact hnot1 ⟨by omega, hne⟩
          have : cur = [] := List.isEmpty_iff.mp hemp
          subst this
          have hc0 : cnt = 0 := by simpa [sumLen] using hcnt
          subst hc0
          have := segLoop_cur_emitted mc rest [s] s.length (by simp) (by omega)
          rw [hjoin] at this
          simpa using this
    · rw [segLoop]
      split
      · exact List.mem_cons_of_mem _ (ih [t] t.length (by simp [sumLen]) s hmem hover)
      · split
        · exact List.mem_cons_of_mem _ (ih [t] t.length (by simp [sumLen]) s hmem hover)
        · exact ih (cur ++ [t]) (cnt + t.length)
            (by rw [sumLen_append_single, hcnt]) s hmem hover

/-- C3 (confirmed): if every sentence of the split fits in `maxChars`, no
returned segment exceeds `maxChars`; moreover every over-length segment is
a single (oversized) sentence, and every oversized sentence appears as a
segment by itself. -/
theorem c3_segment_length_bound (text : List Char) (mc : ℕ) (_hmc : 0 < mc) :
    ((∀ s ∈ sentencesOf text, s.length ≤ mc) →
       ∀ seg ∈ segmentBySpeaker mc text, seg.length ≤ mc) ∧
    (∀ seg ∈ segmentBySpeaker mc text, mc < seg.length → seg ∈ sentencesOf text) ∧
    (∀ s ∈ sentencesOf text, mc < s.length → s ∈ segmentBySpeaker mc text) := by
  refine ⟨?_, ?_, ?_⟩
  · intro hs seg hseg
    exact segLoop_length_le mc (sentencesOf text) [] 0 (by simp [sumLen])
      (by simp [sumLen]) hs seg hseg
  · intro seg hseg hover
    rcases segLoop_over mc (sentencesOf text) [] 0 (by simp [sumLen])
        (Or.inl (by simp [sumLen])) seg hseg hover with h | h
    · exact h
    · simp at h
  · intro s hs hover
    exact segLoop_oversized_mem mc (sentencesOf text) [] 0 (by simp [sumLen]) s hs hover

/-- C3 witness at a concrete text and limit. -/
theorem c3_witness :
    0 < 50 ∧
    (∀ s ∈ sentencesOf "Hi. Bye.".toList, s.length ≤ 50) ∧
    (∀ seg ∈ segmentBySpeaker 50 "Hi. Bye.".toList, seg.length ≤ 50) :=
  ⟨by decide, by decide,
   (c3_segment_length_bound "Hi. Bye.".toList 50 (by decide)).1 (by decide)⟩

/-- C8 (confirmed): on the claimed input with `maxChars = 50` the
segmenter returns exactly the three claimed segments; both later sentences
match a discourse-marker pattern (which is what triggers the flushes — the
sizes, also checked, stay below the limit). -/
theorem c8_discourse_scenario :
    segmentBySpeaker 50
        "大家好，這是第一點。接下來我們討論第二點。Thank you for joining.".toList
      = ["大家好，這是第一點。".toList, "接下來我們討論第二點。".toList,
         "Thank you for joining.".toList] ∧
    isSpeakerChange "接下來我們討論第二點。".toList = true ∧
    isSpeakerChange "Thank you for joining.".toList = true ∧
    "大家好，這是第一點。".toList.length + "接下來我們討論第二點。".toList.length ≤ 50 ∧
    "接下來我們討論第二點。".toList.length + "Thank you for joining.".toList.length ≤ 50 := by
  refine ⟨by decide, by decide, by decide, by decide, by decide⟩

/-! ## The punctuation corrector (`PunctuationCorrector`), claims C4 and C9

`correct` applies eight `re.sub` rules in insertion order; each rule scans
left to right, replaces non-overlapping matches, and resumes after each
match.  The scanners below mirror this: on a failed match attempt at a
position they emit one character and retry at the next position; on a
success they emit the replacement and continue after the matched text. -/

/-- Rule 1, `(\w)([，。]) ?([A-Z])` → `\1. \3`.  The optional `' ?'` is
greedy; since a space is not `[A-Z]`, the one-space and zero-space
alternatives are decided by the character after the (optional) space. -/
def sub1 : List Char → List Char
  | c1 :: c2 :: ' ' :: c3 :: rest =>
    if isWordChar c1 && isFw c2 && c3.isUpper then c1 :: '.' :: ' ' :: c3 :: sub1 rest
    else c1 :: sub1 (c2 :: ' ' :: c3 :: rest)
  | c1 :: c2 :: c3 :: rest =>
    if isWordChar c1 && isFw c2 && c3.isUpper then c1 :: '.' :: ' ' :: c3 :: sub1 rest
    else c1 :: sub1 (c2 :: c3 :: rest)
  | l => l

/-- Rule 2, `(\d+)[的]?年` → `\1年`: inside a digit run the decision is
made at the last digit, where the optional `的` followed by `年` (or `年`
alone, consumed unchanged) is recognised. -/
def sub2 : List Char → List Char
  | c :: '的' :: '年' :: r =>
    if c.isDigit then c :: '年' :: sub2 r else c :: sub2 ('的' :: '年' :: r)
  | c :: '年' :: r =>
    if c.isDigit then c :: '年' :: sub2 r else c :: sub2 ('年' :: r)
  | c :: rest => c :: sub2 rest
  | [] => []

/-- Rule 3, `([a-zA-Z])([，。])` → `\1.`. -/
def sub3 : List Char → List Char
  | c1 :: c2 :: rest =>
    if c1.isAlpha && isFw c2 then c1 :: '.' :: sub3 rest
    else c1 :: sub3 (c2 :: rest)
  | l => l

/-- Rule 4, `(\w)([.!?]) ?([a-zA-Z])` → `\1\2 \3`. -/
def sub4 : List Char → List Char
  | c1 :: c2 :: ' ' :: c3 :: rest =>
    if isWordChar c1 && isEndPunct c2 && c3.isAlpha then c1 :: c2 :: ' ' :: c3 :: sub4 rest
    else c1 :: sub4 (c2 :: ' ' :: c3 :: rest)
  | c1 :: c2 :: c3 :: rest =>
    if isWordChar c1 && isEndPunct c2 && c3.isAlpha then c1 :: c2 :: ' ' :: c3 :: sub4 rest
    else c1 :: sub4 (c2 :: c3 :: rest)
  | l => l

/-- Rule 5, `' +'` → `' '`: collapse each maximal space run to one space. -/
def sub5 : List Char → List Char
  | ' ' :: ' ' :: rest => sub5 (' ' :: rest)
  | c :: rest => c :: sub5 rest
  | [] => []

/-- Rule 6, `(\.)([A-Za-z])` → `\1 \2`. -/
def sub6 : List Char → List Char
  | '.' :: c :: rest =>
    if c.isAlpha then '.' :: ' ' :: c :: sub6 rest
    else '.' :: sub6 (c :: rest)
  | c :: rest => c :: sub6 rest
  | [] => []

/-- Rule 7, `([.!?])([,;])` → `\1`. -/
def sub7 : List Char → List Char
  | c1 :: c2 :: rest =>
    if isEndPunct c1 && (c2 == ',' || c2 == ';') then c1 :: sub7 rest
    else c1 :: sub7 (c2 :: rest)
  | l => l

/-- For rule 8: locate the closing `"` (the bounded `[^"]*"` tail),
returning the quote-free content and the remainder after the close. -/
def findCloseQuote : List Char → Option (List Char × List Char)
  | [] => none
  | c :: rest =>
    if c = '"' then some ([], rest)
    else
      match findCloseQuote rest with
      | some (content, after) => some (c :: content, after)
      | none => none

theorem findCloseQuote_length :
    ∀ (l content after : List Char),
      findCloseQuote l = some (content, after) → after.length < l.length := by
  intro l
  induction l with
  | nil => intro content after h; simp [findCloseQuote] at h
  | cons c rest ih =>
    intro content after h
    rw [findCloseQuote] at h
    split at h
    · simp at h
      obtain ⟨-, rfl⟩ := h
      simp
    · split at h
      · rename_i content' after' hfc
        simp at h
        obtain ⟨-, rfl⟩ := h
        have := ih content' after' hfc
        simp
        omega
      · simp at h

theorem findCloseQuote_eq :
    ∀ (l content after : List Char),
      findCloseQuote l = some (content, after) → l = content ++ '"' :: after := by
  intro l
  induction l with
  | nil => intro content after h; simp [findCloseQuote] at h
  | cons c rest ih =>
    intro content after h
    rw [findCloseQuote] at h
    split at h
    · rename_i hc
      simp at h
      obtain ⟨rfl, rfl⟩ := h
      simp [hc]
    · split at h
      · rename_i content' after' hfc
        simp at h
        obtain ⟨rfl, rfl⟩ := h
        simpa using ih content' after' hfc
      · simp at h

/-- Rule 8, `"([^"]*)"` → `"\1"`: the replacement text is identical to the
matched text. -/
def sub8 : List Char → List Char
  | [] => []
  | c :: rest =>
    if c = '"' then
      match _h : findCloseQuote rest with
      | some (content, after) => '"' :: content ++ '"' :: sub8 after
      | none => '"' :: sub8 rest
    else c :: sub8 rest
termination_by l => l.length
decreasing_by
  · have := findCloseQuote_length rest content after _h
    simp
    omega
  · simp
  · simp

/-- Rule 8 replaces every match by itself: it is the identity. -/
theorem sub8_eq_id (l : List Char) : sub8 l = l := by
  induction l using sub8.induct with
  | case1 => rw [sub8]
  | case2 rest content after hfc ih =>
    have heq := findCloseQuote_eq rest content after hfc
    rw [sub8, if_pos rfl, hfc]
    simp only [ih]
    rw [heq]
    simp
  | case3 rest hfc ih =>
    rw [sub8, if_pos rfl, hfc]
    simp only [ih]
  | case4 c rest hc ih =>
    rw [sub8, if_neg hc, ih]

/-- `PunctuationCorrector.correct`: the eight substitutions in order. -/
def correct (text : List Char) : List Char :=
  sub8 (sub7 (sub6 (sub5 (sub4 (sub3 (sub2 (sub1 text)))))))

theorem correct_eq (text : List Char) :
    correct text = sub7 (sub6 (sub5 (sub4 (sub3 (sub2 (sub1 text)))))) := by
  rw [correct, sub8_eq_id]

/-- C4 (counterexample): for the input `"a.,,b"` the third pass of
`correct` still differs from the second pass (rule 7 deletes only one of
the stacked commas per pass, and rule 4 then reflows the spacing), so two
passes are not a fixed point. -/
theorem c4_counterexample :
    correct (correct (correct "a.,,b".toList))
      ≠ correct (correct "a.,,b".toList) := by
  simp only [correct_eq]
  decide

/-- C4 (amended): a single pass of `correct` is not idempotent, and there
is no uniform two-pass fixed point either: on `"a.,,b"` both the second
and the third pass still change the string, and the fixed point is only
reached at the third pass (the fourth application changes nothing). -/
theorem c4_amended :
    correct "a.,,b".toList ≠ "a.,,b".toList ∧
    correct (correct "a.,,b".toList) ≠ correct "a.,,b".toList ∧
    correct (correct (correct "a.,,b".toList)) ≠ correct (correct "a.,,b".toList) ∧
    correct (correct (correct (correct "a.,,b".toList)))
      = correct (correct (correct "a.,,b".toList)) := by
  refine ⟨?_, ?_, ?_, ?_⟩ <;> (simp only [correct_eq]; decide)

/-! ## Claim C9: full-width punctuation before an uppercase letter

The claim quantifies over occurrences of `[，。]` immediately followed by
`[A-Z]`.  The scanners below decide the presence of the relevant
three-character (word, full-width, upper) and two-character occurrences. -/

/-- Head test: a word char, then `[，。]`, then `[A-Z]`. -/
def headBad (a : Char) : List Char → Bool
  | b :: c :: _ => isWordChar a && isFw b && c.isUpper
  | _ => false

/-- Some word char immediately followed by `[，。]` then `[A-Z]`. -/
def hasBad : List Char → Bool
  | a :: l => headBad a l || hasBad l
  | [] => false

/-- Head test: a non-uppercase word char, then `[，。]`, then `[A-Z]`. -/
def headBadNU (a : Char) : List Char → Bool
  | b :: c :: _ => isWordChar a && !a.isUpper && isFw b && c.isUpper
  | _ => false

/-- Some non-uppercase word char followed by `[，。]` then `[A-Z]`. -/
def hasBadNU : List Char → Bool
  | a :: l => headBadNU a l || hasBadNU l
  | [] => false

/-- Head test: `[a-zA-Z]` immediately followed by `[，。]`. -/
def headLetterFw (a : Char) : List Char → Bool
  | b :: _ => a.isAlpha && isFw b
  | _ => false

/-- Some ASCII letter immediately followed by `[，。]`. -/
def hasLetterFw : List Char → Bool
  | a :: l => headLetterFw a l || hasLetterFw l
  | [] => false

/-- Head test: `[，。]` immediately followed by `[A-Z]`. -/
def headFwUpper (a : Char) : List Char → Bool
  | b :: _ => isFw a && b.isUpper
  | _ => false

/-- Some `[，。]` immediately followed by `[A-Z]` (the claim's pattern). -/
def hasFwUpper : List Char → Bool
  | a :: l => headFwUpper a l || hasFwUpper l
  | [] => false

/-! Character-class facts. -/

theorem isFw_iff (c : Char) : isFw c = true ↔ c = '，' ∨ c = '。' := by
  simp [isFw]

theorem isEndPunct_iff (c : Char) : isEndPunct c = true ↔ c = '.' ∨ c = '!' ∨ c = '?' := by
  simp [isEndPunct, or_assoc]

theorem fw_not_word {c : Char} (h : isFw c = true) : isWordChar c = false := by
  rcases (isFw_iff c).1 h with rfl | rfl <;> decide

theorem fw_not_upper {c : Char} (h : isFw c = true) : c.isUpper = false := by
  rcases (isFw_iff c).1 h with rfl | rfl <;> decide

theorem fw_not_alpha {c : Char} (h : isFw c = true) : c.isAlpha = false := by
  rcases (isFw_iff c).1 h with rfl | rfl <;> decide

theorem fw_not_digit {c : Char} (h : isFw c = true) : c.isDigit = false := by
  rcases (isFw_iff c).1 h with rfl | rfl <;> decide

theorem fw_not_endPunct {c : Char} (h : isFw c = true) : isEndPunct c = false := by
  rcases (isFw_iff c).1 h with rfl | rfl <;> decide

theorem endPunct_not_word {c : Char} (h : isEndPunct c = true) : isWordChar c = false := by
  rcases (isEndPunct_iff c).1 h with rfl | rfl | rfl <;> decide

theorem endPunct_not_fw {c : Char} (h : isEndPunct c = true) : isFw c = false := by
  rcases (isEndPunct_iff c).1 h with rfl | rfl | rfl <;> decide

theorem upper_isAlpha {c : Char} (h : c.isUpper = true) : c.isAlpha = true := by
  simp [Char.isAlpha, h]

theorem alpha_isWordChar {c : Char} (h : c.isAlpha = true) : isWordChar c = true := by
  simp [isWordChar, Char.isAlphanum, h]

theorem upper_isWordChar {c : Char} (h : c.isUpper = true) : isWordChar c = true :=
  alpha_isWordChar (upper_isAlpha h)

/-! Head-test vanishing conditions. -/

theorem headBad_false_of_not_word {a : Char} (l : List Char)
    (h : isWordChar a = false) : headBad a l = false := by
  cases l with
  | nil => rfl
  | cons b t => cases t with
    | nil => rfl
    | cons c t' => simp [headBad, h]

theorem headBad_false_of_fst_not_fw {a b : Char} (l : List Char)
    (h : isFw b = false) : headBad a (b :: l) = false := by
  cases l with
  | nil => rfl
  | cons c t' => simp [headBad, h]

theorem headBad_false_of_snd_not_upper {a b c : Char} (l : List Char)
    (h : c.isUpper = false) : headBad a (b :: c :: l) = false := by
  simp [headBad, h]

theorem headBadNU_false_of_not_word {a : Char} (l : List Char)
    (h : isWordChar a = false) : headBadNU a l = false := by
  cases l with
  | nil => rfl
  | cons b t => cases t with
    | nil => rfl
    | cons c t' => simp [headBadNU, h]

theorem headBadNU_false_of_upper {a : Char} (l : List Char)
    (h : a.isUpper = true) : headBadNU a l = false := by
  cases l with
  | nil => rfl
  | cons b t => cases t with
    | nil => rfl
    | cons c t' => simp [headBadNU, h]

theorem headBadNU_false_of_fst_not_fw {a b : Char} (l : List Char)
    (h : isFw b = false) : headBadNU a (b :: l) = false := by
  cases l with
  | nil => rfl
  | cons c t' => simp [headBadNU, h]

theorem headBadNU_false_of_snd_not_upper {a b c : Char} (l : List Char)
    (h : c.isUpper = false) : headBadNU a (b :: c :: l) = false := by
  simp [headBadNU, h]

theorem headLetterFw_false_of_not_alpha {a : Char} (l : List Char)
    (h : a.isAlpha = false) : headLetterFw a l = false := by
  cases l with
  | nil => rfl
  | cons b t => simp [headLetterFw, h]

theorem headLetterFw_false_of_not_fw {a b : Char} (l : List Char)
    (h : isFw b = false) : headLetterFw a (b :: l) = false := by
  simp [headLetterFw, h]

theorem hasBad_cons_of_tail {a : Char} {l : List Char} (h : hasBad l = true) :
    hasBad (a :: l) = true := by
  simp [hasBad, h]

theorem hasBadNU_cons_of_tail {a : Char} {l : List Char} (h : hasBadNU l = true) :
    hasBadNU (a :: l) = true := by
  simp [hasBadNU, h]

/-- A list with no non-upper bad occurrence and no letter–fullwidth
adjacency has no bad occurrence at all. -/
theorem hasBad_false_of (l : List Char) (h1 : hasBadNU l = false)
    (h2 : hasLetterFw l = false) : hasBad l = false := by
  induction l with
  | nil => rfl
  | cons a t ih =>
    simp only [hasBadNU, Bool.or_eq_false_iff] at h1
    simp only [hasLetterFw, Bool.or_eq_false_iff] at h2
    simp only [hasBad, Bool.or_eq_false_iff]
    refine ⟨?_, ih h1.2 h2.2⟩
    cases t with
    | nil => rfl
    | cons b t' =>
      cases t' with
      | nil => rfl
      | cons c t'' =>
        have hnu := h1.1
        have hlf := h2.1
        simp only [headBadNU] at hnu
        simp only [headLetterFw] at hlf
        simp only [headBad]
        by_cases hu : a.isUpper
        · have ha : a.isAlpha = true := upper_isAlpha hu
          simp [ha] at hlf
          simp [hlf]
        · by_cases hw : isWordChar a
          · by_cases hf : isFw b
            · simp [hw, hf, hu] at hnu
              simp [hnu]
            · simp [hf]
          · simp [hw]

/-- A nonempty list is a cons on its `head?`. -/
theorem exists_cons_of_head? {l : List Char} {a : Char} (h : l.head? = some a) :
    ∃ t, l = a :: t := by
  cases l with
  | nil => simp at h
  | cons x t =>
    simp at h
    exact ⟨t, by rw [h]⟩

theorem sub3_head? (l : List Char) : (sub3 l).head? = l.head? := by
  induction l using sub3.induct with
  | case1 u c rest hc ih => rw [sub3, if_pos hc]; rfl
  | case2 u c rest hc ih => rw [sub3, if_neg hc]; rfl
  | case3 t h =>
    cases t with
    | nil => rfl
    | cons a t' =>
      cases t' with
      | nil => rfl
      | cons b t'' => exact absurd rfl (h a b t'')

theorem sub3_advance {a b : Char} (xs : List Char)
    (h : (a.isAlpha && isFw b) = false) :
    sub3 (a :: b :: xs) = a :: sub3 (b :: xs) := by
  rw [sub3, if_neg (by simp [h])]

/-- Rule 3 eliminates every letter–fullwidth adjacency. -/
theorem sub3_no_letterFw (l : List Char) : hasLetterFw (sub3 l) = false := by
  induction l using sub3.induct with
  | case1 u c rest hc ih =>
    rw [sub3, if_pos hc]
    simp only [hasLetterFw, Bool.or_eq_false_iff]
    refine ⟨?_, ?_, ih⟩
    · exact headLetterFw_false_of_not_fw _ (by decide)
    · exact headLetterFw_false_of_not_alpha _ (by decide)
  | case2 u c rest hc ih =>
    rw [sub3, if_neg (by simp [hc])]
    simp only [hasLetterFw, Bool.or_eq_false_iff]
    refine ⟨?_, ih⟩
    obtain ⟨t, ht⟩ := exists_cons_of_head? (sub3_head? (c :: rest))
    rw [ht]
    simp only [Bool.and_eq_true, not_and, Bool.not_eq_true] at hc
    by_cases ha : u.isAlpha
    · exact headLetterFw_false_of_not_fw _ (by simpa [ha] using hc)
    · exact headLetterFw_false_of_not_alpha _ (by simpa using ha)
  | case3 t h =>
    cases t with
    | nil => rfl
    | cons a t' =>
      cases t' with
      | nil => rfl
      | cons b t'' => exact absurd rfl (h a b t'')

/-- Rule 3 creates no new (non-upper word, fullwidth, upper) occurrence. -/
theorem sub3_reflect_badNU (l : List Char) :
    hasBadNU (sub3 l) = true → hasBadNU l = true := by
  induction l using sub3.induct with
  | case1 u c rest hc ih =>
    rw [sub3, if_pos hc]
    intro h
    simp only [hasBadNU, Bool.or_eq_true] at h
    rcases h with h | h | h
    · rw [headBadNU_false_of_fst_not_fw _ (by decide)] at h; exact absurd h (by simp)
    · rw [headBadNU_false_of_not_word _ (by decide)] at h; exact absurd h (by simp)
    · exact hasBadNU_cons_of_tail (hasBadNU_cons_of_tail (ih h))
  | case2 u c rest hc ih =>
    rw [sub3, if_neg (by simp [hc])]
    intro h
    simp only [hasBadNU, Bool.or_eq_true] at h
    rcases h with h | h
    · -- a head occurrence in `u :: sub3 (c :: rest)`
      obtain ⟨t, ht⟩ := exists_cons_of_head? (sub3_head? (c :: rest))
      rw [ht] at h
      by_cases hf : isFw c
      · -- the second char of `sub3 (c :: rest)` is the head of `rest`
        cases rest with
        | nil =>
          rw [show sub3 [c] = [c] from rfl] at ht
          cases ht
          simp [headBadNU] at h
        | cons r0 rest' =>
          rw [sub3_advance _ (by simp [fw_not_alpha hf])] at ht
          obtain ⟨t', ht'⟩ := exists_cons_of_head? (sub3_head? (r0 :: rest'))
          rw [ht'] at ht
          cases ht
          simp only [headBadNU, Bool.and_eq_true] at h
          simp only [hasBadNU, headBadNU, Bool.or_eq_true]
          left
          simp [h.1.1.1, h.1.1.2, h.1.2, h.2]
      · rw [headBadNU_false_of_fst_not_fw _ (by simpa using hf)] at h
        exact absurd h (by simp)
    · exact hasBadNU_cons_of_tail (ih h)
  | case3 t h =>
    cases t with
    | nil => exact fun h' => h'
    | cons a t' =>
      cases t' with
      | nil => exact fun h' => h'
      | cons b t'' => exact absurd rfl (h a b t'')

theorem sub6_cons_ne {a : Char} (xs : List Char) (h : ¬ a = '.') :
    sub6 (a :: xs) = a :: sub6 xs := by
  rw [sub6.eq_def]
  split
  · rename_i heq
    injection heq with h1 h2
    exact absurd h1 h
  · rename_i heq
    injection heq with h1 h2
    subst h1; subst h2; rfl
  · rename_i heq
    cases heq

theorem sub5_cons_ne {a : Char} (xs : List Char) (h : ¬ a = ' ') :
    sub5 (a :: xs) = a :: sub5 xs := by
  rw [sub5.eq_def]
  split
  · rename_i heq
    injection heq with h1 h2
    exact absurd h1 h
  · rename_i heq
    injection heq with h1 h2
    subst h1; subst h2; rfl
  · rename_i heq
    cases heq

theorem sub5_space_cons_ne {b : Char} (t : List Char) (hb : ¬ b = ' ') :
    sub5 (' ' :: b :: t) = ' ' :: sub5 (b :: t) := by
  rw [sub5.eq_def]
  split
  · rename_i heq
    injection heq with h1 h2
    injection h2 with h3 h4
    exact absurd h3 hb
  · rename_i heq
    injection heq with h1 h2
    subst h1; subst h2; rfl
  · rename_i heq
    cases heq

theorem sub5_singleton (a : Char) : sub5 [a] = [a] := by
  by_cases h : a = ' '
  · subst h; rfl
  · rw [sub5_cons_ne _ h]; rfl

theorem sub6_singleton (a : Char) : sub6 [a] = [a] := by
  by_cases h : a = '.'
  · subst h; rfl
  · rw [sub6_cons_ne _ h]; rfl

theorem sub7_head? (l : List Char) : (sub7 l).head? = l.head? := by
  induction l using sub7.induct with
  | case1 u c rest hc ih => rw [sub7, if_pos hc]; rfl
  | case2 u c rest hc ih => rw [sub7, if_neg hc]; rfl
  | case3 t h =>
    cases t with
    | nil => rfl
    | cons a t' =>
      cases t' with
      | nil => rfl
      | cons b t'' => exact absurd rfl (h a b t'')

theorem sub6_head? (l : List Char) : (sub6 l).head? = l.head? := by
  induction l using sub6.induct with
  | case1 c rest hc ih => rw [sub6, if_pos hc]; rfl
  | case2 c rest hc ih => rw [sub6, if_neg hc]; rfl
  | case3 c rest hne ih =>
    by_cases hc : c = '.'
    · subst hc
      cases rest with
      | nil => rfl
      | cons b t => exact (hne b t rfl rfl).elim
    · rw [sub6_cons_ne _ hc]; rfl
  | case4 => rfl

theorem sub5_head? (l : List Char) : (sub5 l).head? = l.head? := by
  induction l using sub5.induct with
  | case1 rest ih => rw [sub5]; exact ih
  | case2 c rest hne ih =>
    by_cases hc : c = ' '
    · subst hc
      cases rest with
      | nil => rfl
      | cons b t =>
        by_cases hb : b = ' '
        · subst hb; exact (hne t rfl rfl).elim
        · rw [sub5_space_cons_ne _ hb]; rfl
    · rw [sub5_cons_ne _ hc]; rfl
  | case3 => rfl

/-- Rule 7 creates no new (word, fullwidth, upper) occurrence. -/
theorem sub7_reflect_bad (l : List Char) :
    hasBad (sub7 l) = true → hasBad l = true := by
  induction l using sub7.induct with
  | case1 u c rest hc ih =>
    rw [sub7, if_pos hc]
    intro h
    simp only [hasBad, Bool.or_eq_true] at h
    rcases h with h | h
    · rw [headBad_false_of_not_word _
        (endPunct_not_word (by simp [Bool.and_eq_true] at hc; exact hc.1))] at h
      exact absurd h (by simp)
    · exact hasBad_cons_of_tail (hasBad_cons_of_tail (ih h))
  | case2 u c rest hc ih =>
    rw [sub7, if_neg hc]
    intro h
    simp only [hasBad, Bool.or_eq_true] at h
    rcases h with h | h
    · obtain ⟨t, ht⟩ := exists_cons_of_head? (sub7_head? (c :: rest))
      rw [ht] at h
      by_cases hf : isFw c
      · cases rest with
        | nil =>
          rw [show sub7 [c] = [c] from rfl] at ht
          cases ht
          simp [headBad] at h
        | cons r0 rest' =>
          rw [show sub7 (c :: r0 :: rest') = c :: sub7 (r0 :: rest') from by
            rw [sub7, if_neg (by simp [fw_not_endPunct hf])]] at ht
          obtain ⟨t', ht'⟩ := exists_cons_of_head? (sub7_head? (r0 :: rest'))
          rw [ht'] at ht
          cases ht
          simp only [headBad, Bool.and_eq_true] at h
          simp only [hasBad, headBad, Bool.or_eq_true]
          left
          simp [h.1.1, h.1.2, h.2]
      · rw [headBad_false_of_fst_not_fw _ (by simpa using hf)] at h
        exact absurd h (by simp)
    · exact hasBad_cons_of_tail (ih h)
  | case3 t h =>
    cases t with
    | nil => exact fun h' => h'
    | cons a t' =>
      cases t' with
      | nil => exact fun h' => h'
      | cons b t'' => exact absurd rfl (h a b t'')

/-- Rule 6 creates no new (word, fullwidth, upper) occurrence. -/
theorem sub6_reflect_bad (l : List Char) :
    hasBad (sub6 l) = true → hasBad l = true := by
  induction l using sub6.induct with
  | case1 c rest hc ih =>
    rw [sub6, if_pos hc]
    intro h
    simp only [hasBad, Bool.or_eq_true] at h
    rcases h with h | h | h
    · rw [headBad_false_of_not_word _ (by decide)] at h
      exact absurd h (by simp)
    · rw [headBad_false_of_not_word _ (by decide)] at h
      exact absurd h (by simp)
    · rcases h with h | h
      · -- occurrence headed by `c` reaching into `sub6 rest`
        cases rest with
        | nil => simp [headBad, sub6] at h
        | cons r0 rest' =>
          obtain ⟨t, ht⟩ := exists_cons_of_head? (sub6_head? (r0 :: rest'))
          rw [ht] at h
          by_cases hf : isFw r0
          · cases rest' with
            | nil =>
              rw [sub6_singleton r0] at ht
              cases ht
              simp [headBad] at h
            | cons r1 rest'' =>
              rw [sub6_cons_ne _ (by rintro rfl; exact absurd hf (by decide))] at ht
              obtain ⟨t', ht'⟩ := exists_cons_of_head? (sub6_head? (r1 :: rest''))
              rw [ht'] at ht
              cases ht
              simp only [headBad, Bool.and_eq_true] at h
              refine hasBad_cons_of_tail ?_
              simp only [hasBad, headBad, Bool.or_eq_true]
              left
              simp [h.1.1, h.1.2, h.2]
          · rw [headBad_false_of_fst_not_fw _ (by simpa using hf)] at h
            exact absurd h (by simp)
      · exact hasBad_cons_of_tail (hasBad_cons_of_tail (ih h))
  | case2 c rest hc ih =>
    rw [sub6, if_neg hc]
    intro h
    simp only [hasBad, Bool.or_eq_true] at h
    rcases h with h | h
    · rw [headBad_false_of_not_word _ (by decide)] at h
      exact absurd h (by simp)
    · exact hasBad_cons_of_tail (ih h)
  | case3 c rest hne ih =>
    have heq : sub6 (c :: rest) = c :: sub6 rest := by
      by_cases hc : c = '.'
      · subst hc
        cases rest with
        | nil => rfl
        | cons b t => exact (hne b t rfl rfl).elim
      · exact sub6_cons_ne _ hc
    rw [heq]
    intro h
    simp only [hasBad, Bool.or_eq_true] at h
    rcases h with h | h
    · cases rest with
      | nil => simp [headBad, sub6] at h
      | cons r0 rest' =>
        obtain ⟨t, ht⟩ := exists_cons_of_head? (sub6_head? (r0 :: rest'))
        rw [ht] at h
        by_cases hf : isFw r0
        · cases rest' with
          | nil =>
            rw [sub6_singleton r0] at ht
            cases ht
            simp [headBad] at h
          | cons r1 rest'' =>
            rw [sub6_cons_ne _ (by rintro rfl; exact absurd hf (by decide))] at ht
            obtain ⟨t', ht'⟩ := exists_cons_of_head? (sub6_head? (r1 :: rest''))
            rw [ht'] at ht
            cases ht
            simp only [headBad, Bool.and_eq_true] at h
            simp only [hasBad, headBad, Bool.or_eq_true]
            left
            simp [h.1.1, h.1.2, h.2]
        · rw [headBad_false_of_fst_not_fw _ (by simpa using hf)] at h
          exact absurd h (by simp)
    · exact hasBad_cons_of_tail (ih h)
  | case4 => exact fun h' => h'

/-- Rule 5 creates no new (word, fullwidth, upper) occurrence. -/
theorem sub5_reflect_bad (l : List Char) :
    hasBad (sub5 l) = true → hasBad l = true := by
  induction l using sub5.induct with
  | case1 rest ih =>
    rw [sub5]
    intro h
    exact hasBad_cons_of_tail (ih h)
  | case2 c rest hne ih =>
    have heq : sub5 (c :: rest) = c :: sub5 rest := by
      by_cases hc : c = ' '
      · subst hc
        cases rest with
        | nil => rfl
        | cons b t =>
          by_cases hb : b = ' '
          · subst hb; exact (hne t rfl rfl).elim
          · exact sub5_space_cons_ne _ hb
      · exact sub5_cons_ne _ hc
    rw [heq]
    intro h
    simp only [hasBad, Bool.or_eq_true] at h
    rcases h with h | h
    · cases rest with
      | nil => simp [headBad, sub5] at h
      | cons r0 rest' =>
        obtain ⟨t, ht⟩ := exists_cons_of_head? (sub5_head? (r0 :: rest'))
        rw [ht] at h
        by_cases hf : isFw r0
        · cases rest' with
          | nil =>
            rw [sub5_singleton r0] at ht
            cases ht
            simp [headBad] at h
          | cons r1 rest'' =>
            rw [sub5_cons_ne _ (by rintro rfl; exact absurd hf (by decide))] at ht
            obtain ⟨t', ht'⟩ := exists_cons_of_head? (sub5_head? (r1 :: rest''))
            rw [ht'] at ht
            cases ht
            simp only [headBad, Bool.and_eq_true] at h
            simp only [hasBad, headBad, Bool.or_eq_true]
            left
            simp [h.1.1, h.1.2, h.2]
        · rw [headBad_false_of_fst_not_fw _ (by simpa using hf)] at h
          exact absurd h (by simp)
    · exact hasBad_cons_of_tail (ih h)
  | case3 => exact fun h' => h'

theorem sub4_head? (l : List Char) : (sub4 l).head? = l.head? := by
  induction l using sub4.induct with
  | case1 c1 c2 c3 rest hc ih => rw [sub4, if_pos hc]; rfl
  | case2 c1 c2 c3 rest hc ih => rw [sub4, if_neg hc]; rfl
  | case3 c1 c2 c3 rest hs hc ih =>
    rw [show sub4 (c1 :: c2 :: c3 :: rest)
        = if (isWordChar c1 && isEndPunct c2 && c3.isAlpha) = true
          then c1 :: c2 :: ' ' :: c3 :: sub4 rest
          else c1 :: sub4 (c2 :: c3 :: rest) from by
      rw [sub4.eq_def]
      split
      · rename_i heq
        injection heq with h1 h2
        injection h2 with h3 h4
        injection h4 with h5 h6
        exact (hs _ _ h5 h6).elim
      · rename_i heq
        injection heq with h1 h2
        injection h2 with h3 h4
        injection h4 with h5 h6
        subst h1; subst h3; subst h5; subst h6; rfl
      · rename_i hg1 hg2
        exact (hg2 c1 c2 c3 rest rfl).elim]
    split <;> rfl
  | case4 c1 c2 c3 rest hs hc ih =>
    rw [show sub4 (c1 :: c2 :: c3 :: rest) = c1 :: sub4 (c2 :: c3 :: rest) from by
      rw [sub4.eq_def]
      split
      · rename_i heq
        injection heq with h1 h2
        injection h2 with h3 h4
        injection h4 with h5 h6
        exact (hs _ _ h5 h6).elim
      · rename_i heq
        injection heq with h1 h2
        injection h2 with h3 h4
        injection h4 with h5 h6
        subst h1; subst h3; subst h5; subst h6
        rw [if_neg hc]
      · rename_i hg1 hg2
        exact (hg2 c1 c2 c3 rest rfl).elim]
    rfl
  | case5 l hg1 hg2 =>
    match l, hg2 with
    | [], _ => rfl
    | [a], _ => rfl
    | [a, b], _ => rfl
    | a :: b :: c :: rest, hg2 => exact (hg2 a b c rest rfl).elim

/-- If the first character is not a word character the rule-4 scanner
just advances. -/
theorem sub4_advance_not_word {a : Char} (b : Char) (xs : List Char)
    (h : isWordChar a = false) :
    sub4 (a :: b :: xs) = a :: sub4 (b :: xs) := by
  rw [sub4.eq_def]
  split
  · rename_i heq
    injection heq with h1 h2
    injection h2 with h3 h4
    subst h1; subst h3; subst h4
    rw [if_neg (by simp [h])]
  · rename_i heq
    injection heq with h1 h2
    injection h2 with h3 h4
    subst h1; subst h3; subst h4
    rw [if_neg (by simp [h])]
  · cases xs with
    | nil => rfl
    | cons x xs' =>
      rename_i hg1 hg2
      exact ((hg2 a b x xs' rfl).elim)

theorem sub4_singleton (a : Char) : sub4 [a] = [a] := rfl

/-- Rule 4 creates no new (word, fullwidth, upper) occurrence. -/
theorem sub4_reflect_bad (l : List Char) :
    hasBad (sub4 l) = true → hasBad l = true := by
  induction l using sub4.induct with
  | case1 c1 c2 c3 rest hc ih =>
    rw [sub4, if_pos hc]
    intro h
    simp only [Bool.and_eq_true] at hc
    simp only [hasBad, Bool.or_eq_true] at h
    rcases h with h | h | h | h
    · rw [headBad_false_of_fst_not_fw _ (endPunct_not_fw hc.1.2)] at h
      exact absurd h (by simp)
    · rw [headBad_false_of_not_word _ (endPunct_not_word hc.1.2)] at h
      exact absurd h (by simp)
    · rw [headBad_false_of_not_word _ (by decide)] at h
      exact absurd h (by simp)
    · rcases h with h | h
      · -- occurrence (c3, rest₀, rest₁) reaching into `sub4 rest`
        cases rest with
        | nil => simp [headBad, sub4] at h
        | cons r0 rest' =>
          obtain ⟨t, ht⟩ := exists_cons_of_head? (sub4_head? (r0 :: rest'))
          rw [ht] at h
          by_cases hf : isFw r0
          · cases rest' with
            | nil =>
              rw [sub4_singleton r0] at ht
              cases ht
              simp [headBad] at h
            | cons r1 rest'' =>
              rw [sub4_advance_not_word _ _ (fw_not_word hf)] at ht
              obtain ⟨t', ht'⟩ := exists_cons_of_head? (sub4_head? (r1 :: rest''))
              rw [ht'] at ht
              cases ht
              simp only [headBad, Bool.and_eq_true] at h
              refine hasBad_cons_of_tail (hasBad_cons_of_tail (hasBad_cons_of_tail ?_))
              simp only [hasBad, headBad, Bool.or_eq_true]
              left
              simp [h.1.1, h.1.2, h.2]
          · rw [headBad_false_of_fst_not_fw _ (by simpa using hf)] at h
            exact absurd h (by simp)
      · exact hasBad_cons_of_tail (hasBad_cons_of_tail (hasBad_cons_of_tail
          (hasBad_cons_of_tail (ih h))))
  | case2 c1 c2 c3 rest hc ih =>
    rw [sub4, if_neg hc]
    intro h
    simp only [hasBad, Bool.or_eq_true] at h
    rcases h with h | h
    · -- head occurrence into `sub4 (c2 :: ' ' :: c3 :: rest)`
      obtain ⟨t, ht⟩ := exists_cons_of_head? (sub4_head? (c2 :: ' ' :: c3 :: rest))
      rw [ht] at h
      by_cases hf : isFw c2
      · rw [sub4_advance_not_word _ _ (fw_not_word hf)] at ht
        obtain ⟨t', ht'⟩ := exists_cons_of_head? (sub4_head? (' ' :: c3 :: rest))
        rw [ht'] at ht
        cases ht
        rw [headBad_false_of_snd_not_upper _ (by decide)] at h
        exact absurd h (by simp)
      · rw [headBad_false_of_fst_not_fw _ (by simpa using hf)] at h
        exact absurd h (by simp)
    · exact hasBad_cons_of_tail (ih h)
  | case3 c1 c2 c3 rest hs hc ih =>
    rw [show sub4 (c1 :: c2 :: c3 :: rest) = c1 :: c2 :: ' ' :: c3 :: sub4 rest from by
      rw [sub4.eq_def]
      split
      · rename_i heq
        injection heq with h1 h2
        injection h2 with h3 h4
        injection h4 with h5 h6
        exact (hs _ _ h5 h6).elim
      · rename_i heq
        injection heq with h1 h2
        injection h2 with h3 h4
        injection h4 with h5 h6
        subst h1; subst h3; subst h5; subst h6
        rw [if_pos hc]
      · rename_i hg1 hg2
        exact (hg2 c1 c2 c3 rest rfl).elim]
    intro h
    simp only [Bool.and_eq_true] at hc
    simp only [hasBad, Bool.or_eq_true] at h
    rcases h with h | h | h | h
    · rw [headBad_false_of_fst_not_fw _ (endPunct_not_fw hc.1.2)] at h
      exact absurd h (by simp)
    · rw [headBad_false_of_not_word _ (endPunct_not_word hc.1.2)] at h
      exact absurd h (by simp)
    · rw [headBad_false_of_not_word _ (by decide)] at h
      exact absurd h (by simp)
    · rcases h with h | h
      · cases rest with
        | nil => simp [headBad, sub4] at h
        | cons r0 rest' =>
          obtain ⟨t, ht⟩ := exists_cons_of_head? (sub4_head? (r0 :: rest'))
          rw [ht] at h
          by_cases hf : isFw r0
          · cases rest' with
            | nil =>
              rw [sub4_singleton r0] at ht
              cases ht
              simp [headBad] at h
            | cons r1 rest'' =>
              rw [sub4_advance_not_word _ _ (fw_not_word hf)] at ht
              obtain ⟨t', ht'⟩ := exists_cons_of_head? (sub4_head? (r1 :: rest''))
              rw [ht'] at ht
              cases ht
              simp only [headBad, Bool.and_eq_true] at h
              refine hasBad_cons_of_tail (hasBad_cons_of_tail ?_)
              simp only [hasBad, headBad, Bool.or_eq_true]
              left
              simp [h.1.1, h.1.2, h.2]
          · rw [headBad_false_of_fst_not_fw _ (by simpa using hf)] at h
            exact absurd h (by simp)
      · exact hasBad_cons_of_tail (hasBad_cons_of_tail (hasBad_cons_of_tail (ih h)))
  | case4 c1 c2 c3 rest hs hc ih =>
    rw [show sub4 (c1 :: c2 :: c3 :: rest) = c1 :: sub4 (c2 :: c3 :: rest) from by
      rw [sub4.eq_def]
      split
      · rename_i heq
        injection heq with h1 h2
        injection h2 with h3 h4
        injection h4 with h5 h6
        exact (hs _ _ h5 h6).elim
      · rename_i heq
        injection heq with h1 h2
        injection h2 with h3 h4
        injection h4 with h5 h6
        subst h1; subst h3; subst h5; subst h6
        rw [if_neg hc]
      · rename_i hg1 hg2
        exact (hg2 c1 c2 c3 rest rfl).elim]
    intro h
    simp only [hasBad, Bool.or_eq_true] at h
    rcases h with h | h
    · obtain ⟨t, ht⟩ := exists_cons_of_head? (sub4_head? (c2 :: c3 :: rest))
      rw [ht] at h
      by_cases hf : isFw c2
      · rw [sub4_advance_not_word _ _ (fw_not_word hf)] at ht
        obtain ⟨t', ht'⟩ := exists_cons_of_head? (sub4_head? (c3 :: rest))
        rw [ht'] at ht
        cases ht
        simp only [headBad, Bool.and_eq_true] at h
        simp only [hasBad, headBad, Bool.or_eq_true]
        left
        simp [h.1.1, h.1.2, h.2]
      · rw [headBad_false_of_fst_not_fw _ (by simpa using hf)] at h
        exact absurd h (by simp)
    · exact hasBad_cons_of_tail (ih h)
  | case5 l hg1 hg2 =>
    match l, hg2 with
    | [], _ => exact fun h' => h'
    | [a], _ => exact fun h' => h'
    | [a, b], _ => exact fun h' => h'
    | a :: b :: c :: rest, hg2 => exact (hg2 a b c rest rfl).elim

/-- A non-digit head makes the rule-2 scanner advance. -/
theorem sub2_advance_not_digit {a : Char} (xs : List Char)
    (h : a.isDigit = false) : sub2 (a :: xs) = a :: sub2 xs := by
  rw [sub2.eq_def]
  split
  · rename_i heq
    injection heq with h1 h2
    subst h1; subst h2
    rw [if_neg (by simp [h])]
  · rename_i heq
    injection heq with h1 h2
    subst h1; subst h2
    rw [if_neg (by simp [h])]
  · rename_i heq
    injection heq with h1 h2
    subst h1; subst h2
    rfl
  · rename_i heq
    cases heq

theorem sub2_head? (l : List Char) : (sub2 l).head? = l.head? := by
  induction l using sub2.induct with
  | case1 c r hc ih => rw [sub2, if_pos hc]; rfl
  | case2 c r hc ih =>
    rw [sub2_advance_not_digit _ (by simpa using hc)]; rfl
  | case3 c r hc ih => rw [sub2, if_pos hc]; rfl
  | case4 c r hc ih =>
    rw [sub2_advance_not_digit _ (by simpa using hc)]; rfl
  | case5 c rest hg1 hg2 ih =>
    rw [show sub2 (c :: rest) = c :: sub2 rest from by
      rw [sub2.eq_def]
      split
      · rename_i heq
        injection heq with h1 h2
        exact (hg1 _ h2).elim
      · rename_i heq
        injection heq with h1 h2
        exact (hg2 _ h2).elim
      · rename_i heq
        injection heq with h1 h2
        subst h1; subst h2; rfl
      · rename_i heq
        cases heq]
    rfl
  | case6 => rfl

/-- Rule 2 creates no new occurrence of a non-upper word character
followed by fullwidth punctuation and an uppercase letter. -/
theorem sub2_reflect_badNU (l : List Char) :
    hasBadNU (sub2 l) = true → hasBadNU l = true := by
  induction l using sub2.induct with
  | case1 c r hc ih =>
    rw [sub2, if_pos hc]
    intro h
    simp only [hasBadNU, Bool.or_eq_true] at h
    rcases h with h | h | h
    · rw [headBadNU_false_of_fst_not_fw _ (by decide)] at h
      exact absurd h (by simp)
    · -- an occurrence headed by `年` reaching into `sub2 r`
      cases r with
      | nil => simp [headBadNU, sub2] at h
      | cons r0 r' =>
        obtain ⟨t, ht⟩ := exists_cons_of_head? (sub2_head? (r0 :: r'))
        rw [ht] at h
        by_cases hf : isFw r0
        · cases r' with
          | nil =>
            rw [show sub2 [r0] = [r0] from
                by rw [sub2_advance_not_digit _ (fw_not_digit hf)]; rfl] at ht
            cases ht
            simp [headBadNU] at h
          | cons r1 r'' =>
            rw [sub2_advance_not_digit _ (fw_not_digit hf)] at ht
            obtain ⟨t', ht'⟩ := exists_cons_of_head? (sub2_head? (r1 :: r''))
            rw [ht'] at ht
            cases ht
            simp only [headBadNU, Bool.and_eq_true] at h
            refine hasBadNU_cons_of_tail (hasBadNU_cons_of_tail ?_)
            have hw : isWordChar '年' = true := by decide
            have hu : '年'.isUpper = false := by decide
            simp only [hasBadNU, headBadNU, Bool.or_eq_true]
            left
            simp [hw, hu, h.1.2, h.2]
        · rw [headBadNU_false_of_fst_not_fw _ (by simpa using hf)] at h
          exact absurd h (by simp)
    · exact hasBadNU_cons_of_tail (hasBadNU_cons_of_tail (hasBadNU_cons_of_tail (ih h)))
  | case2 c r hc ih =>
    rw [sub2_advance_not_digit _ (by simpa using hc)]
    intro h
    have h0 : (headBadNU c (sub2 ('的' :: '年' :: r))
        || hasBadNU (sub2 ('的' :: '年' :: r))) = true := h
    rw [Bool.or_eq_true] at h0
    rcases h0 with h0 | h0
    · obtain ⟨t, ht⟩ := exists_cons_of_head? (sub2_head? ('的' :: '年' :: r))
      rw [ht, headBadNU_false_of_fst_not_fw _ (by decide)] at h0
      exact absurd h0 (by simp)
    · exact hasBadNU_cons_of_tail (ih h0)
  | case3 c r hc ih =>
    rw [sub2, if_pos hc]
    intro h
    simp only [hasBadNU, Bool.or_eq_true] at h
    rcases h with h | h | h
    · rw [headBadNU_false_of_fst_not_fw _ (by decide)] at h
      exact absurd h (by simp)
    · cases r with
      | nil => simp [headBadNU, sub2] at h
      | cons r0 r' =>
        obtain ⟨t, ht⟩ := exists_cons_of_head? (sub2_head? (r0 :: r'))
        rw [ht] at h
        by_cases hf : isFw r0
        · cases r' with
          | nil =>
            rw [show sub2 [r0] = [r0] from
                by rw [sub2_advance_not_digit _ (fw_not_digit hf)]; rfl] at ht
            cases ht
            simp [headBadNU] at h
          | cons r1 r'' =>
            rw [sub2_advance_not_digit _ (fw_not_digit hf)] at ht
            obtain ⟨t', ht'⟩ := exists_cons_of_head? (sub2_head? (r1 :: r''))
            rw [ht'] at ht
            cases ht
            simp only [headBadNU, Bool.and_eq_true] at h
            refine hasBadNU_cons_of_tail ?_
            have hw : isWordChar '年' = true := by decide
            have hu : '年'.isUpper = false := by decide
            simp only [hasBadNU, headBadNU, Bool.or_eq_true]
            left
            simp [hw, hu, h.1.2, h.2]
        · rw [headBadNU_false_of_fst_not_fw _ (by simpa using hf)] at h
          exact absurd h (by simp)
    · exact hasBadNU_cons_of_tail (hasBadNU_cons_of_tail (ih h))
  | case4 c r hc ih =>
    rw [sub2_advance_not_digit _ (by simpa using hc)]
    intro h
    have h0 : (headBadNU c (sub2 ('年' :: r))
        || hasBadNU (sub2 ('年' :: r))) = true := h
    rw [Bool.or_eq_true] at h0
    rcases h0 with h0 | h0
    · obtain ⟨t, ht⟩ := exists_cons_of_head? (sub2_head? ('年' :: r))
      rw [ht, headBadNU_false_of_fst_not_fw _ (by decide)] at h0
      exact absurd h0 (by simp)
    · exact hasBadNU_cons_of_tail (ih h0)
  | case5 c rest hg1 hg2 ih =>
    rw [show sub2 (c :: rest) = c :: sub2 rest from by
      rw [sub2.eq_def]
      split
      · rename_i heq
        injection heq with h1 h2
        exact (hg1 _ h2).elim
      · rename_i heq
        injection heq with h1 h2
        exact (hg2 _ h2).elim
      · rename_i heq
        injection heq with h1 h2
        subst h1; subst h2; rfl
      · rename_i heq
        cases heq]
    intro h
    simp only [hasBadNU, Bool.or_eq_true] at h
    rcases h with h | h
    · cases rest with
      | nil => simp [headBadNU, sub2] at h
      | cons r0 r' =>
        obtain ⟨t, ht⟩ := exists_cons_of_head? (sub2_head? (r0 :: r'))
        rw [ht] at h
        by_cases hf : isFw r0
        · cases r' with
          | nil =>
            rw [show sub2 [r0] = [r0] from
                by rw [sub2_advance_not_digit _ (fw_not_digit hf)]; rfl] at ht
            cases ht
            simp [headBadNU] at h
          | cons r1 r'' =>
            rw [sub2_advance_not_digit _ (fw_not_digit hf)] at ht
            obtain ⟨t', ht'⟩ := exists_cons_of_head? (sub2_head? (r1 :: r''))
            rw [ht'] at ht
            cases ht
            simp only [headBadNU, Bool.and_eq_true] at h
            simp only [hasBadNU, headBadNU, Bool.or_eq_true]
            left
            simp [h.1.1.1, h.1.1.2, h.1.2, h.2]
        · rw [headBadNU_false_of_fst_not_fw _ (by simpa using hf)] at h
          exact absurd h (by simp)
    · exact hasBadNU_cons_of_tail (ih h)
  | case6 => exact fun h' => h'

/-- If the second character is not fullwidth punctuation the rule-1
scanner just advances. -/
theorem sub1_advance_snd_not_fw {b : Char} (a : Char) (xs : List Char)
    (h : isFw b = false) : sub1 (a :: b :: xs) = a :: sub1 (b :: xs) := by
  cases xs with
  | nil => rfl
  | cons c xs' =>
    cases xs' with
    | nil =>
      rw [sub1.eq_2 a b c [] (fun _ _ _ hr => by cases hr), if_neg (by simp [h])]
    | cons d rest =>
      by_cases hc : c = ' '
      · subst hc
        rw [sub1.eq_1, if_neg (by simp [h])]
      · rw [sub1.eq_2 a b c (d :: rest) (fun _ _ hcc _ => hc hcc), if_neg (by simp [h])]

/-- If the first character is not a word character the rule-1 scanner
just advances. -/
theorem sub1_advance_not_word {a : Char} (b : Char) (xs : List Char)
    (h : isWordChar a = false) : sub1 (a :: b :: xs) = a :: sub1 (b :: xs) := by
  cases xs with
  | nil => rfl
  | cons c xs' =>
    cases xs' with
    | nil =>
      rw [sub1.eq_2 a b c [] (fun _ _ _ hr => by cases hr), if_neg (by simp [h])]
    | cons d rest =>
      by_cases hc : c = ' '
      · subst hc
        rw [sub1.eq_1, if_neg (by simp [h])]
      · rw [sub1.eq_2 a b c (d :: rest) (fun _ _ hcc _ => hc hcc), if_neg (by simp [h])]

theorem sub1_head? (l : List Char) : (sub1 l).head? = l.head? := by
  induction l using sub1.induct with
  | case1 c1 c2 c3 rest hc ih => rw [sub1, if_pos hc]; rfl
  | case2 c1 c2 c3 rest hc ih => rw [sub1, if_neg hc]; rfl
  | case3 c1 c2 c3 rest hs hc ih => rw [sub1.eq_2 _ _ _ _ hs, if_pos hc]; rfl
  | case4 c1 c2 c3 rest hs hc ih => rw [sub1.eq_2 _ _ _ _ hs, if_neg hc]; rfl
  | case5 l hg1 hg2 => rw [sub1.eq_3 l hg1 hg2]

/-- The output of rule 1 contains no non-upper word character followed by
fullwidth punctuation and an uppercase letter: every occurrence the scan
skips is headed by the uppercase letter of the preceding match. -/
theorem sub1_hasBadNU (l : List Char) : hasBadNU (sub1 l) = false := by
  induction l using sub1.induct with
  | case1 c1 c2 c3 rest hc ih =>
    rw [sub1, if_pos hc]
    simp only [Bool.and_eq_true] at hc
    simp only [hasBadNU, Bool.or_eq_false_iff]
    exact ⟨headBadNU_false_of_fst_not_fw _ (by decide),
      ⟨headBadNU_false_of_not_word _ (by decide),
        ⟨headBadNU_false_of_not_word _ (by decide),
          ⟨headBadNU_false_of_upper _ hc.2, ih⟩⟩⟩⟩
  | case2 c1 c2 c3 rest hc ih =>
    rw [sub1, if_neg hc]
    have hM : sub1 (c2 :: ' ' :: c3 :: rest) = c2 :: sub1 (' ' :: c3 :: rest) :=
      sub1_advance_snd_not_fw c2 _ (by decide)
    have hN : sub1 (' ' :: c3 :: rest) = ' ' :: sub1 (c3 :: rest) :=
      sub1_advance_not_word _ _ (by decide)
    rw [hM, hN]
    rw [hM, hN] at ih
    simp only [hasBadNU, Bool.or_eq_false_iff] at ih ⊢
    exact ⟨headBadNU_false_of_snd_not_upper _ (by decide),
      ⟨headBadNU_false_of_fst_not_fw _ (by decide),
        ⟨headBadNU_false_of_not_word _ (by decide), ih.2.2⟩⟩⟩
  | case3 c1 c2 c3 rest hs hc ih =>
    rw [sub1.eq_2 _ _ _ _ hs, if_pos hc]
    simp only [Bool.and_eq_true] at hc
    simp only [hasBadNU, Bool.or_eq_false_iff]
    exact ⟨headBadNU_false_of_fst_not_fw _ (by decide),
      ⟨headBadNU_false_of_not_word _ (by decide),
        ⟨headBadNU_false_of_not_word _ (by decide),
          ⟨headBadNU_false_of_upper _ hc.2, ih⟩⟩⟩⟩
  | case4 c1 c2 c3 rest hs hc ih =>
    rw [sub1.eq_2 _ _ _ _ hs, if_neg hc]
    by_cases hf : isFw c2
    · have hM : sub1 (c2 :: c3 :: rest) = c2 :: sub1 (c3 :: rest) :=
        sub1_advance_not_word _ _ (fw_not_word hf)
      obtain ⟨t, ht⟩ := exists_cons_of_head? (sub1_head? (c3 :: rest))
      rw [hM, ht]
      rw [hM, ht] at ih
      simp only [hasBadNU, Bool.or_eq_false_iff] at ih ⊢
      refine ⟨?_, ih⟩
      by_cases hw : isWordChar c1
      · have hup : c3.isUpper = false := by
          by_contra hu
          rw [Bool.not_eq_false] at hu
          exact hc (by simp [hw, hf, hu])
        exact headBadNU_false_of_snd_not_upper _ hup
      · exact headBadNU_false_of_not_word _ (by simpa using hw)
    · obtain ⟨t, ht⟩ := exists_cons_of_head? (sub1_head? (c2 :: c3 :: rest))
      rw [ht]
      rw [ht] at ih
      simp only [hasBadNU, Bool.or_eq_false_iff] at ih ⊢
      exact ⟨headBadNU_false_of_fst_not_fw _ (by simpa using hf), ih⟩
  | case5 l hg1 hg2 =>
    rw [sub1.eq_3 l hg1 hg2]
    match l, hg2 with
    | [], _ => rfl
    | [a], _ => rfl
    | [a, b], _ => rfl
    | a :: b :: c :: rest, hg2 => exact (hg2 a b c rest rfl).elim

/-- C9 (counterexample): on the input `"，A"` — a full-width comma
immediately followed by an uppercase letter at the start of the text —
`correct` changes nothing (rule 1 requires a word character *before* the
full-width mark), so the output still contains the pattern the claim says
is always eliminated. -/
theorem c9_counterexample :
    correct "，A".toList = "，A".toList ∧
    hasFwUpper (correct "，A".toList) = true := by
  constructor
  · rw [correct_eq]; decide
  · rw [correct_eq]; decide

/-- C9 (amended): after `correct` runs, no occurrence of a **word
character** followed by a full-width comma/period followed by an uppercase
Latin letter remains (rule 1 converts the word-char-guarded occurrences,
rule 3 mops up the ones rule 1's non-overlapping scan skipped, and the
remaining rules never re-create the pattern); occurrences not preceded by
a word character can survive, see the counterexample. -/
theorem c9_amended (text : List Char) : hasBad (correct text) = false := by
  rw [correct_eq]
  have h1 : hasBadNU (sub1 text) = false := sub1_hasBadNU text
  have h2 : hasBadNU (sub2 (sub1 text)) = false := by
    by_contra hv
    rw [Bool.not_eq_false] at hv
    exact absurd (sub2_reflect_badNU _ hv) (by simp [h1])
  have h3nu : hasBadNU (sub3 (sub2 (sub1 text))) = false := by
    by_contra hv
    rw [Bool.not_eq_false] at hv
    exact absurd (sub3_reflect_badNU _ hv) (by simp [h2])
  have h3 : hasBad (sub3 (sub2 (sub1 text))) = false :=
    hasBad_false_of _ h3nu (sub3_no_letterFw _)
  have h4 : hasBad (sub4 (sub3 (sub2 (sub1 text)))) = false := by
    by_contra hv
    rw [Bool.not_eq_false] at hv
    exact absurd (sub4_reflect_bad _ hv) (by simp [h3])
  have h5 : hasBad (sub5 (sub4 (sub3 (sub2 (sub1 text))))) = false := by
    by_contra hv
    rw [Bool.not_eq_false] at hv
    exact absurd (sub5_reflect_bad _ hv) (by simp [h4])
  have h6 : hasBad (sub6 (sub5 (sub4 (sub3 (sub2 (sub1 text)))))) = false := by
    by_contra hv
    rw [Bool.not_eq_false] at hv
    exact absurd (sub6_reflect_bad _ hv) (by simp [h5])
  by_contra hv
  rw [Bool.not_eq_false] at hv
  exact absurd (sub7_reflect_bad _ hv) (by simp [h6])

/-! ## Claim C7: `MemoryGuard` never raises

`MemoryGuard.__enter__` wraps the baseline measurement in a bare
`try/except` (start value 0 on any failure); `__exit__` wraps the
re-measurement, threshold comparison, cache clear and print in
`try/except Exception`, reducing failures to a diagnostic message.  The
underlying `mx` API is modelled as an oracle: each `hasattr` answer and
each call outcome (return value or raised exception) is arbitrary.
Exceptions are `Except String`; `print` is modelled as the returned
diagnostic string.  `1.2` (exact here; the float is within 2⁻⁵² of it,
which no claim distinguishes) scales the baseline. -/

/-- Arbitrary behaviour of the `mx` module as observed by `MemoryGuard`. -/
structure MxOracle where
  hasGetActiveMemory : Bool
  getActiveMemoryEnter : Except String ℚ
  getActiveMemoryExit : Except String ℚ
  hasClearCache : Bool
  clearCache : Except String Unit

/-- `MemoryGuard.__enter__`: bare `except` makes the baseline total. -/
def guardEnter (o : MxOracle) : Except String ℚ :=
  let body : Except String ℚ :=
    if o.hasGetActiveMemory then o.getActiveMemoryEnter else .ok 0
  match body with
  | .ok v => .ok v
  | .error _ => .ok 0

/-- The `try` body of `MemoryGuard.__exit__`; returns the printed line. -/
def guardExitBody (o : MxOracle) (startMem : ℚ) : Except String String :=
  if o.hasGetActiveMemory then do
    let currentMem ← o.getActiveMemoryExit
    if currentMem > startMem * (12/10) then
      if o.hasClearCache then do
        let _ ← o.clearCache
        pure "Memory reclaimed"
      else
        pure "Memory reclaimed"
    else
      pure "Memory reclaimed"
  else
    pure "Memory management not available in this MLX version"

/-- `MemoryGuard.__exit__`: `except Exception` reduces any failure of the
body to a diagnostic. -/
def guardExit (o : MxOracle) (startMem : ℚ) : Except String String :=
  match guardExitBody o startMem with
  | .ok msg => .ok msg
  | .error e => .ok ("Memory management error: " ++ e)

/-- Entering then exiting the `MemoryGuard` scope. -/
def guardScope (o : MxOracle) : Except String String := do
  let startMem ← guardEnter o
  guardExit o startMem

/-- C7 (confirmed): for every behaviour of the memory-measurement and
cache-clear operations — including any of them raising — entering and
exiting the `MemoryGuard` scope completes without propagating an
exception: both `__enter__`, `__exit__`, and the composed scope always
return `.ok`. -/
theorem c7_memory_guard_never_raises :
    ∀ (o : MxOracle) (startMem : ℚ),
      (guardEnter o).isOk = true ∧
      (guardExit o startMem).isOk = true ∧
      (guardScope o).isOk = true := by
  intro o startMem
  refine ⟨?_, ?_, ?_⟩
  · unfold guardEnter
    cases hb : (if o.hasGetActiveMemory then o.getActiveMemoryEnter else .ok 0) with
    | ok v => rfl
    | error e => rfl
  · unfold guardExit
    cases hb : guardExitBody o startMem with
    | ok v => rfl
    | error e => rfl
  · unfold guardScope
    unfold guardEnter
    cases hb : (if o.hasGetActiveMemory then o.getActiveMemoryEnter else .ok 0) with
    | ok v =>
      simp only [hb, Except.bind]
      unfold guardExit
      show (match guardExitBody o v with
        | Except.ok msg => Except.ok msg
        | Except.error e => Except.ok ("Memory management error: " ++ e)).isOk = true
      cases hb2 : guardExitBody o v with
      | ok m => rfl
      | error e => rfl
    | error e =>
      simp only [hb, Except.bind]
      unfold guardExit
      show (match guardExitBody o 0 with
        | Except.ok msg => Except.ok msg
        | Except.error e => Except.ok ("Memory management error: " ++ e)).isOk = true
      cases hb2 : guardExitBody o 0 with
      | ok m => rfl
      | error e2 => rfl

end MeetingMinutesATS
